import Mathlib

/-!
# Verification of `html_substring` (src/src/main.ts)

This file gives a shallow embedding of the truncation routine
`html_substring` from `src/src/main.ts` and proves / refutes the
specification claims about it.

Modelling conventions:

* The source iterates `chars = Array.from(source)`, an array of
  single-codepoint strings; we use `List Char`.  The current character
  `c` inside the scanners starts as the empty string `''` in the source
  and is modelled as `Option Char` (`none` = never assigned).
* JavaScript array accesses out of range yield `undefined`; comparisons
  `chars[i] !== '-'` with `undefined` are `true`.  We model reads as
  `chars[i]?` and those comparisons against `none`.
* The close-tag stack `closeQueue` is pushed/popped at the JS array end
  and reversed in place before the final join.  We keep the stack with
  its top at the head of the Lean list, so `push` is cons, `pop` takes
  the head, and the final `closeQueue.reverse()` followed by
  `[result, ...closeQueue].join('')` becomes joining the Lean list in
  order (the list is already in closing order, innermost first).
* The open-tag queue `openedQueue` keeps JS order: `shift` takes the
  head, `push` appends at the end, `unshift` conses at the front.
* All loops are written with explicit fuel (structural recursion on a
  `Nat`) so that every definition is executable and reduces inside the
  kernel.  Fuel exhaustion in the comment loop returns `none`, which
  marks the states in which the JavaScript loop would read past the end
  of the array and run forever; termination of the whole routine is
  proved, not assumed.
* The state record carries ghost fields (`events`, `suffixCount`,
  `popClean`) that are written exactly beside the corresponding
  `result` updates of the source and never read by the algorithm; they
  let us state balance and one-shot-suffix properties of the output.
* A suffix given as a zero-argument producer is observationally its
  value (the source invokes it at most once); we model
  `suffix : Option String`.
-/

namespace HtmlSubstring

/-- Modelled from the spec: the static void-element table is imported
from the external `html-tags/void` package, which is not under `src/`.
The spec (§2 item 2, glossary) describes it as the static lookup of void
elements, naming `img` and `br`; this is the standard table of that
package.  No claim depends on the exact membership beyond uncontroversial
entries (`br`, `img` void; `b`, `i`, `p`, `span` not). -/
def voidHtmlTags : List String :=
  ["area", "base", "br", "col", "command", "embed", "hr", "img",
   "input", "keygen", "link", "menuitem", "meta", "param", "source",
   "track", "wbr"]

/-- List of tags having optional closing tag (src/src/main.ts line 7). -/
def optionalVoidHtmlTags : List String := ["li"]

/-- Character classifier `isLetter` (line 27): a character is a letter
when lower-casing and upper-casing disagree. -/
def isLetter (c : Char) : Bool := c.toLower != c.toUpper

/-- Character classifier `isNumber` (line 31):
`'0123456789'.indexOf(input) !== -1`, i.e. membership of the character
in the digit string. -/
def isNumber (c : Char) : Bool := "0123456789".data.contains c

/-- Character classifier `isWhitespace` (line 35):
`' \t\r\n'.indexOf(input) !== -1`, i.e. membership of the character in
the whitespace string. -/
def isWhitespace (c : Char) : Bool := " \t\r\n".data.contains c

/-- Test that the last character of a string is `/`:
`other[other.length - 1] === '/'` (line 142); an empty string has no
last character and the comparison is false. -/
def lastIsSlash (s : String) : Bool := s.data.getLast? == some '/'

/-- Vocabulary predicate `isVoidTag` (line 39). -/
def isVoidTag (tag : String) : Bool := voidHtmlTags.contains tag

/-- Vocabulary predicate `isOptionalVoidTag` (line 40). -/
def isOptionalVoidTag (tag : String) : Bool := optionalVoidHtmlTags.contains tag

/-- Vocabulary predicate `haveToHaveClosingTag` (line 42). -/
def haveToHaveClosingTag (tag : String) : Bool :=
  !(isVoidTag tag || isOptionalVoidTag tag)

/-- Options record (lines 15-19); a function-valued suffix is modelled
by its value. -/
structure Options where
  breakWords : Bool
  suffix : Option String
  shouldEncloseSuffixInTags : Bool
deriving Repr, DecidableEq

/-- Default options (lines 21-25). -/
def DEFAULT_OPTIONS : Options :=
  { breakWords := true, suffix := none, shouldEncloseSuffixInTags := false }

/-- The string-shorthand overload (lines 57-61): a bare string means
"use this as suffix, defaults otherwise". -/
def optionsOfString (s : String) : Options :=
  { DEFAULT_OPTIONS with suffix := some s }

/-- The single error kind (line 13 together with the throw site at
lines 273-277): the thrown message carries the offending tag name and
the offset at which the closing tag began. -/
structure HtmlSubstringError where
  tag : String
  offset : Nat
deriving Repr, DecidableEq

/-- Ghost record of one output emission; `render` recovers exactly the
text appended to `result` at the corresponding source line. -/
inductive Evt where
  /-- Visible text or other literal characters appended to the result. -/
  | txt : String → Evt
  /-- An opening tag `<tag other>` emitted by `openTags`; `closable`
  records `!(isVoid || isOptionalVoid || isXHTMLClosed)`. -/
  | tagOpen : String → String → Bool → Evt
  /-- A closing tag string appended to the result; `closable` records
  `haveToHaveClosingTag` of its element. -/
  | tagClose : String → Bool → Evt
  /-- The configured suffix appended by `addSuffix`. -/
  | sfx : String → Evt
deriving Repr, DecidableEq

/-- Text contributed to the result by one emission event. -/
def Evt.render : Evt → String
  | .txt s => s
  | .tagOpen tag other _ => "<" ++ tag ++ other ++ ">"
  | .tagClose s _ => s
  | .sfx s => s

/-- Concatenation of the rendered events, in emission order. -/
def renderAll : List Evt → String
  | [] => ""
  | e :: es => e.render ++ renderAll es

/-- Stack run over the emission events: closable opening tags push
their closing form, closable closing tags must match the top of the
stack; non-closable tags and text are ignored.  `none` means the
closing tags do not follow stack (LIFO) discipline. -/
def runEvts : List Evt → List String → Option (List String)
  | [], stk => some stk
  | .txt _ :: es, stk => runEvts es stk
  | .sfx _ :: es, stk => runEvts es stk
  | .tagOpen tag _ true :: es, stk => runEvts es (("</" ++ tag ++ ">") :: stk)
  | .tagOpen _ _ false :: es, stk => runEvts es stk
  | .tagClose s true :: es, stk =>
      match stk with
      | [] => none
      | top :: rest => if top = s then runEvts es rest else none
  | .tagClose _ false :: es, stk => runEvts es stk

/-- Balanced emission trace: every closable opening tag is closed by a
matching closing tag in stack (LIFO) order, and no closable closing tag
appears without its open obligation. -/
def balancedEvts (es : List Evt) : Bool := runEvts es [] == some []

/-- Number of suffix emissions in a trace. -/
def sfxCount (es : List Evt) : Nat :=
  (es.filter fun e => match e with | .sfx _ => true | _ => false).length

/-- The mutable state of one `html_substring` call (lines 69-71,
125-129, 186-187), plus ghost fields (`events`, `suffixCount`,
`popClean`) that never influence the algorithm. -/
structure St where
  /-- Current source position `i` (line 70). -/
  i : Nat
  /-- Current text length `current` (line 69). -/
  current : Nat
  /-- Current word buffer `cw` (line 186). -/
  cw : List Char
  /-- Word-emptiness flag `cwEmpty` (line 187). -/
  cwEmpty : Bool
  /-- Nonflushed open tags `openedQueue` (line 126), head = front. -/
  openedQueue : List (String × String)
  /-- Close-tag stack `closeQueue` (line 127), head = top of the JS
  array (its end). -/
  closeQueue : List String
  /-- Result accumulator (line 128). -/
  result : String
  /-- One-shot latch `suffixAdded` (line 129). -/
  suffixAdded : Bool
  /-- Ghost: emission trace mirroring every `result` append. -/
  events : List Evt
  /-- Ghost: how many times `addSuffix` actually appended. -/
  suffixCount : Nat
  /-- Ghost: stays `true` while every pop search on the close-tag stack
  matched at the top without discarding entries. -/
  popClean : Bool
deriving Repr, DecidableEq

/-- Initial state of a call. -/
def initSt : St :=
  { i := 0, current := 0, cw := [], cwEmpty := true, openedQueue := [],
    closeQueue := [], result := "", suffixAdded := false, events := [],
    suffixCount := 0, popClean := true }

/-- First scanning loop of `openTag` (lines 79-86): reads the maximal
run of letters/digits from position `i`, consuming one extra character
when the run is broken.  Returns the accumulated name, the new cursor,
and the last examined character (`none` when no character was
examined, matching the initial `c = ''`). -/
def scanTagName (chars : List Char) : Nat → Nat → String × Nat × Option Char
  | 0, i => ("", i, none)
  | fuel + 1, i =>
    if h : i < chars.length then
      let c := chars[i]
      if !isLetter c && !isNumber c then ("", i + 1, some c)
      else
        let r := scanTagName chars fuel (i + 1)
        (⟨c :: r.1.data⟩, r.2.1, r.2.2.orElse fun _ => some c)
    else ("", i, none)

/-- Second scanning loop of `openTag` (lines 91-98): accumulates the
raw attribute/trailer text until (and consuming) `>`. -/
def scanTagOther (chars : List Char) : Nat → Nat → String × Nat × Option Char
  | 0, i => ("", i, none)
  | fuel + 1, i =>
    if h : i < chars.length then
      let c := chars[i]
      if c = '>' then ("", i + 1, some c)
      else
        let r := scanTagOther chars fuel (i + 1)
        (⟨c :: r.1.data⟩, r.2.1, r.2.2.orElse fun _ => some c)
    else ("", i, none)

/-- The `openTag` closure (lines 73-108), called with the cursor just
after `<`.  On success returns the scanned `[tag, other]` pair and the
advanced cursor; on failure pushes `<` onto the word buffer and rewinds
the cursor to `tagStart` (line 102-104).  The word buffer is threaded
explicitly. -/
def openTagScan (chars : List Char) (i : Nat) (cw : List Char) :
    Option (String × String) × Nat × List Char :=
  let tagStart := i
  let r1 := scanTagName chars chars.length i
  let tag := r1.1
  let i1 := r1.2.1
  let c1 := r1.2.2
  let r2 :=
    if tag.length > 0 && decide (i1 < chars.length) && c1 != some '>' then
      match c1 with
      | some ch =>
        let r := scanTagOther chars chars.length i1
        ((⟨ch :: r.1.data⟩ : String), r.2.1, r.2.2.orElse fun _ => c1)
      | none => ("", i1, c1)
    else ("", i1, c1)
  let other := r2.1
  let i2 := r2.2.1
  let c2 := r2.2.2
  if tag.length = 0 || c2 != some '>' then
    (none, tagStart, cw ++ ['<'])
  else
    (some (tag, other), i2, cw)

/-- The `closeTag` closure (lines 110-123): consumes everything up to
and including the next `>`, returning the accumulated name and the new
cursor. -/
def closeTagScan (chars : List Char) : Nat → Nat → String × Nat
  | 0, i => ("", i)
  | fuel + 1, i =>
    if h : i < chars.length then
      let c := chars[i]
      if c = '>' then ("", i + 1)
      else
        let r := closeTagScan chars fuel (i + 1)
        (⟨c :: r.1.data⟩, r.2)
    else ("", i)

/-- The comment-skipping loop (lines 240-247):
`while (chars[i] !== '-' && chars[i+1] !== '-' && chars[i+2] !== '>')`
copies one character per iteration, counting it toward the budget.
Out-of-range reads are `undefined` in the source, which compares
unequal to the probed characters, so once the cursor passes the end the
condition stays true and the JavaScript loop never exits; `none` marks
exactly those diverging runs (fuel `chars.length + 1 - i` reaches the
out-of-range read whenever the loop stays within bounds). -/
def commentLoop (chars : List Char) :
    Nat → Nat → Nat → String → Option (Nat × Nat × String)
  | 0, _, _, _ => none
  | fuel + 1, i, cur, acc =>
    if chars[i]? != some '-' && chars[i + 1]? != some '-'
        && chars[i + 2]? != some '>' then
      match chars[i]? with
      | some c => commentLoop chars fuel (i + 1) (cur + 1) (acc.push c)
      | none => none
    else some (i, cur, acc)

/-- The entity-scanning loop (lines 305-318), entered with `offset` at
the `&` and the cursor at `offset + 1`.  Whitespace before `;` rewinds
the cursor to just after the `&`; a `;` copies the whole span from
`offset + 1` through the `;` inclusive; running off the end leaves the
cursor at the end and copies nothing.  Returns the new cursor and the
text appended to the result. -/
def entityScan (chars : List Char) (offset : Nat) :
    Nat → Nat → Nat × String
  | 0, i => (i, "")
  | fuel + 1, i =>
    if h : i < chars.length then
      let c := chars[i]
      if isWhitespace c then (offset + 1, "")
      else if c = ';' then
        (i + 1, ⟨(chars.drop (offset + 1)).take (i + 1 - (offset + 1))⟩)
      else entityScan chars offset fuel (i + 1)
    else (i, "")

/-- One pass of the `openTags` closure body (lines 131-157), as fuelled
recursion on the queue length: shift the front record, classify it,
stop (putting it back) when `onlyVoid` is set and the tag is neither
void nor XHTML-self-closed, otherwise emit `<tag other>` and, when the
tag is closable, push its closing form onto the close-tag stack. -/
def openTagsF : Nat → Bool → St → St
  | 0, _, st => st
  | fuel + 1, onlyVoid, st =>
    match st.openedQueue with
    | [] => st
    | (tag, other) :: rest =>
      let isVoid := isVoidTag tag
      let isOptionalVoid := isOptionalVoidTag tag
      let isXHTMLClosed := lastIsSlash other
      if onlyVoid && !(isVoid || isXHTMLClosed) then
        st
      else
        let closable := !(isVoid || isOptionalVoid || isXHTMLClosed)
        openTagsF fuel onlyVoid
          { st with
            openedQueue := rest
            result := st.result ++ ("<" ++ tag ++ other ++ ">")
            events := st.events ++ [Evt.tagOpen tag other closable]
            closeQueue :=
              if closable then ("</" ++ tag ++ ">") :: st.closeQueue
              else st.closeQueue }

/-- The `openTags` closure (lines 131-157); one queue element is
consumed per iteration, so the queue length is enough fuel. -/
def openTags (onlyVoid : Bool) (st : St) : St :=
  openTagsF st.openedQueue.length onlyVoid st

/-- The `addSuffix` closure (lines 171-184): appends the configured
suffix to the given string the first time it runs, then latches. -/
def addSuffix (opts : Options) (st : St) (r : String) : String × St :=
  match opts.suffix with
  | some sfx =>
    if !st.suffixAdded then
      (r ++ sfx,
        { st with
          suffixAdded := true
          suffixCount := st.suffixCount + 1
          events := st.events ++ [Evt.sfx sfx] })
    else (r, st)
  | none => (r, st)

/-- The `flushWord` closure (lines 188-223).  With `breakWords` the
flushable amount is `max(min(length - current, cw.length), 0)`, which
in `Nat` arithmetic is `min (length - current) cw.length` (the
truncated subtraction supplies the outer `max` with `0`); a partial
flush keeps the remainder pending.  Without `breakWords` the whole
pending word is flushed only when it fits.  Returns the success flag
and the new state. -/
def flushWord (length : Nat) (opts : Options) (st : St) : Bool × St :=
  if opts.breakWords then
    if st.cw.length = 0 then (true, st)
    else
      let addable := min (length - st.current) st.cw.length
      if addable = 0 then (false, st)
      else
        let st1 := openTags false st
        (true,
          { st1 with
            result := st1.result ++ (⟨st.cw.take addable⟩ : String)
            events := st1.events ++ [Evt.txt ⟨st.cw.take addable⟩]
            current := st1.current + addable
            cw := st.cw.drop addable })
  else
    if st.cw.length = 0 then (true, st)
    else if st.current + st.cw.length ≤ length then
      let st1 := openTags false st
      (true,
        { st1 with
          result := st1.result ++ (⟨st.cw⟩ : String)
          events := st1.events ++ [Evt.txt ⟨st.cw⟩]
          current := st1.current + st.cw.length
          cw := [] })
    else (false, st)

/-- The pop-until-match loop on the close-tag stack (lines 266-271):
pop entries (our head = the JS array end) until one equals the target
closing string; `none` when the stack empties without a match, in which
case the source throws. -/
def popUntil (target : String) : List String → Option (List String)
  | [] => none
  | t :: rest => if t = target then some rest else popUntil target rest

/-- Concatenation of a list of strings: the JavaScript
`[. . .].join('')` with an empty separator. -/
def joinAll : List String → String
  | [] => ""
  | s :: rest => s ++ joinAll rest

/-- Outcome of one iteration of the labelled main loop. -/
inductive Step where
  /-- The iteration finished; continue the loop. -/
  | cont : St → Step
  /-- `break mainloop` (lines 231, 326): leave the loop, then finalize. -/
  | brk : St → Step
  /-- The throw on lines 274-276. -/
  | fail : HtmlSubstringError → Step
  /-- The comment loop ran past the end of the input: the JavaScript
  loop diverges.  Also used for the impossible out-of-range read of the
  loop head, which the loop guard excludes. -/
  | hang : Step
deriving Repr

/-- Shared tail of the closing-tag case (lines 280-287): inject the
suffix inline when the budget is reached under
`shouldEncloseSuffixInTags`, then emit the literal closing tag. -/
def emitCloseTag (length : Nat) (opts : Options) (tag : String) (st : St) : St :=
  let rs :=
    if st.current ≥ length && opts.shouldEncloseSuffixInTags then
      addSuffix opts st st.result
    else (st.result, st)
  let st1 := rs.2
  { st1 with
    result := rs.1 ++ ("</" ++ tag ++ ">")
    events := st1.events ++ [Evt.tagClose ("</" ++ tag ++ ">") (haveToHaveClosingTag tag)] }

/-- One iteration of the labelled main loop (lines 225-334), entered
under the loop guard `current < length && i < chars.length`.  Consumes
`c = chars[i++]` and dispatches on it. -/
def stepFn (chars : List Char) (length : Nat) (opts : Options) (st0 : St) : Step :=
  match chars[st0.i]? with
  | none => Step.hang
  | some c =>
    let st := { st0 with i := st0.i + 1 }
    if c = '<' then
      match flushWord length opts st with
      | (false, st) => Step.brk st
      | (true, st) =>
        match chars[st.i]? with
        | some '!' =>
          if chars[st.i + 1]? == some '-' && chars[st.i + 2]? == some '-' then
            let stc := { st with i := st.i + 2 }
            match commentLoop chars (chars.length + 1 - stc.i) stc.i stc.current "" with
            | none => Step.hang
            | some (i', cur', copied) =>
              Step.cont
                { stc with
                  i := i' + 2
                  current := cur'
                  result := stc.result ++ copied
                  events := stc.events ++ [Evt.txt copied] }
          else
            Step.cont
              { st with
                current := st.current + 1
                result := st.result ++ "<"
                events := st.events ++ [Evt.txt "<"] }
        | some '/' =>
          let st := openTags false st
          let offset := st.i - 1
          let tr := closeTagScan chars chars.length (st.i + 1)
          let tag := tr.1
          let st := { st with i := tr.2 }
          if haveToHaveClosingTag tag then
            match popUntil ("</" ++ tag ++ ">") st.closeQueue with
            | none => Step.fail ⟨tag, offset⟩
            | some rest =>
              let clean := st.closeQueue.head? == some ("</" ++ tag ++ ">")
              Step.cont (emitCloseTag length opts tag
                { st with closeQueue := rest, popClean := st.popClean && clean })
          else
            Step.cont (emitCloseTag length opts tag st)
        | _ =>
          match openTagScan chars st.i st.cw with
          | (some t, i', cw') =>
            Step.cont { st with i := i', cw := cw', openedQueue := st.openedQueue ++ [t] }
          | (none, i', cw') =>
            Step.cont { st with i := i', cw := cw' }
    else if c = '&' then
      let offset := st.i - 1
      let st :=
        { st with
          result := st.result ++ "&"
          current := st.current + 1
          events := st.events ++ [Evt.txt "&"] }
      let er := entityScan chars offset (chars.length - st.i) st.i
      Step.cont
        { st with
          i := er.1
          result := st.result ++ er.2
          events := st.events ++ [Evt.txt er.2] }
    else
      let flushed :=
        if !isLetter c && !st.cwEmpty then
          flushWord length opts { st with cwEmpty := true }
        else (true, st)
      match flushed with
      | (false, st) => Step.brk st
      | (true, st) =>
        let st := if !isWhitespace c then { st with cwEmpty := false } else st
        Step.cont { st with cw := st.cw ++ [c] }

/-- The labelled main loop `mainloop` (lines 225-334), with fuel.
`none` is fuel exhaustion (or the unreachable `Step.hang`); `.error`
is the thrown `HtmlSubstringError`; `.ok` is the state in which the
loop was left, by its guard or by `break mainloop`. -/
def mainLoop (chars : List Char) (length : Nat) (opts : Options) :
    Nat → St → Option (Except HtmlSubstringError St)
  | 0, _ => none
  | fuel + 1, st =>
    if st.current < length ∧ st.i < chars.length then
      match stepFn chars length opts st with
      | .cont st' => mainLoop chars length opts fuel st'
      | .brk st' => some (.ok st')
      | .fail e => some (.error e)
      | .hang => none
    else some (.ok st)

/-- Finalization after the loop (lines 336-345): flush void/self-closed
queued tags, attempt one last word flush, then build
`[result, ...closeQueue.reverse()].join('')` with the suffix injected
before or after the synthesized closing tags (only when the final flush
failed).  Our close-tag list is already in closing order, so the
in-place `reverse()` becomes joining it as is. -/
def finalize (length : Nat) (opts : Options) (st : St) : St :=
  let st := openTags true st
  let fr := flushWord length opts st
  let flushed := fr.1
  let st := fr.2
  if opts.shouldEncloseSuffixInTags then
    let rs := if flushed then (st.result, st) else addSuffix opts st st.result
    let st1 := rs.2
    { st1 with
      result := rs.1 ++ joinAll st1.closeQueue
      events := st1.events ++ st1.closeQueue.map (Evt.tagClose · true) }
  else
    let joined := st.result ++ joinAll st.closeQueue
    let st1 := { st with events := st.events ++ st.closeQueue.map (Evt.tagClose · true) }
    let rs := if flushed then (joined, st1) else addSuffix opts st1 joined
    { rs.2 with result := rs.1 }

/-- The whole call `html_substring(source, length, opts)` (lines
51-346), producing the final state.  `none` marks fuel exhaustion or a
diverging comment loop; both are proved unreachable. -/
def htmlRun (source : String) (length : Nat) (opts : Options) :
    Option (Except HtmlSubstringError St) :=
  let chars := source.data
  match mainLoop chars length opts (chars.length + 1) initSt with
  | none => none
  | some (.error e) => some (.error e)
  | some (.ok st) => some (.ok (finalize length opts st))

/-- The public operation: the returned string, or the thrown error. -/
def html_substring (source : String) (length : Nat)
    (opts : Options := DEFAULT_OPTIONS) :
    Option (Except HtmlSubstringError String) :=
  (htmlRun source length opts).map (fun r => r.map St.result)

/-- The run invariant: the result is exactly the rendering of the
emission trace, the suffix counter agrees with the latch and counts the
suffix emissions, the visible counter stays within the budget plus one
(the literal `<` written for a `<!` that does not start a comment is
counted after the word flush may already have filled the budget, so
`length` itself is not an upper bound of `current`), and (as long as
every pop search matched at the top of the close-tag stack) the
emission trace runs to exactly the current close-tag stack. -/
def Inv (length : Nat) (st : St) : Prop :=
  st.result = renderAll st.events ∧
  st.suffixCount = (if st.suffixAdded then 1 else 0) ∧
  sfxCount st.events = st.suffixCount ∧
  st.current ≤ length + 1 ∧
  (st.popClean = true → runEvts st.events [] = some st.closeQueue)

/-- Invariant of a run over a source with no `<` and no `&` under
`breakWords = true`: no tags are ever queued or owed, the emitted text
plus the pending word buffer is exactly the consumed prefix of the
source, the emitted length is the visible counter, the counter stays
within the budget, and the suffix has not been appended. -/
def TextInv (chars : List Char) (length : Nat) (st : St) : Prop :=
  st.openedQueue = [] ∧ st.closeQueue = [] ∧
  st.result.data ++ st.cw = chars.take st.i ∧
  st.result.data.length = st.current ∧
  st.current ≤ length ∧
  st.suffixAdded = false ∧
  st.i ≤ chars.length

end HtmlSubstring

namespace HtmlSubstring

/-! ## Helper lemmas about the ghost trace -/

theorem str_append_assoc (a b c : String) : a ++ b ++ c = a ++ (b ++ c) := by
  apply String.ext
  simp [String.data_append, List.append_assoc]

theorem str_append_empty (s : String) : s ++ "" = s := by
  apply String.ext
  simp [String.data_append]

theorem str_empty_append (s : String) : "" ++ s = s := by
  apply String.ext
  simp [String.data_append]

theorem renderAll_append (es es' : List Evt) :
    renderAll (es ++ es') = renderAll es ++ renderAll es' := by
  induction es with
  | nil =>
    apply String.ext
    simp [renderAll, String.data_append]
  | cons e es ih =>
    simp only [List.cons_append, renderAll, List.append_eq, ih, str_append_assoc]

theorem runEvts_append (es es' : List Evt) (stk : List String) :
    runEvts (es ++ es') stk = (runEvts es stk).bind fun s => runEvts es' s := by
  induction es generalizing stk with
  | nil => simp [runEvts]
  | cons e es ih =>
    cases e with
    | txt s => simp [runEvts, ih]
    | sfx s => simp [runEvts, ih]
    | tagOpen t o cl => cases cl <;> simp [runEvts, ih]
    | tagClose s cl =>
      cases cl with
      | false => simp [runEvts, ih]
      | true =>
        cases stk with
        | nil => simp [runEvts]
        | cons top rest =>
          by_cases h : top = s <;> simp [runEvts, h, ih]

theorem sfxCount_append (es es' : List Evt) :
    sfxCount (es ++ es') = sfxCount es + sfxCount es' := by
  simp [sfxCount, List.filter_append]

/-! ## Frame lemmas for `openTags` -/

theorem openTagsF_i (fuel : Nat) (b : Bool) (st : St) :
    (openTagsF fuel b st).i = st.i := by
  induction fuel generalizing st with
  | zero => rfl
  | succ fuel ih =>
    unfold openTagsF
    split
    · rfl
    · dsimp only
      split
      · rfl
      · exact (ih _).trans rfl

theorem openTagsF_current (fuel : Nat) (b : Bool) (st : St) :
    (openTagsF fuel b st).current = st.current := by
  induction fuel generalizing st with
  | zero => rfl
  | succ fuel ih =>
    unfold openTagsF
    split
    · rfl
    · dsimp only
      split
      · rfl
      · exact (ih _).trans rfl

theorem openTagsF_cw (fuel : Nat) (b : Bool) (st : St) :
    (openTagsF fuel b st).cw = st.cw := by
  induction fuel generalizing st with
  | zero => rfl
  | succ fuel ih =>
    unfold openTagsF
    split
    · rfl
    · dsimp only
      split
      · rfl
      · exact (ih _).trans rfl

theorem openTagsF_cwEmpty (fuel : Nat) (b : Bool) (st : St) :
    (openTagsF fuel b st).cwEmpty = st.cwEmpty := by
  induction fuel generalizing st with
  | zero => rfl
  | succ fuel ih =>
    unfold openTagsF
    split
    · rfl
    · dsimp only
      split
      · rfl
      · exact (ih _).trans rfl

theorem openTagsF_suffixAdded (fuel : Nat) (b : Bool) (st : St) :
    (openTagsF fuel b st).suffixAdded = st.suffixAdded := by
  induction fuel generalizing st with
  | zero => rfl
  | succ fuel ih =>
    unfold openTagsF
    split
    · rfl
    · dsimp only
      split
      · rfl
      · exact (ih _).trans rfl

theorem openTagsF_suffixCount (fuel : Nat) (b : Bool) (st : St) :
    (openTagsF fuel b st).suffixCount = st.suffixCount := by
  induction fuel generalizing st with
  | zero => rfl
  | succ fuel ih =>
    unfold openTagsF
    split
    · rfl
    · dsimp only
      split
      · rfl
      · exact (ih _).trans rfl

theorem openTagsF_popClean (fuel : Nat) (b : Bool) (st : St) :
    (openTagsF fuel b st).popClean = st.popClean := by
  induction fuel generalizing st with
  | zero => rfl
  | succ fuel ih =>
    unfold openTagsF
    split
    · rfl
    · dsimp only
      split
      · rfl
      · exact (ih _).trans rfl

theorem openTagsF_inv (length : Nat) (fuel : Nat) (b : Bool) (st : St)
    (h : Inv length st) : Inv length (openTagsF fuel b st) := by
  induction fuel generalizing st with
  | zero => exact h
  | succ fuel ih =>
    unfold openTagsF
    split
    · exact h
    · dsimp only
      split
      · exact h
      · apply ih
        obtain ⟨h1, h2, h3, h4, h5⟩ := h
        refine ⟨?_, h2, ?_, h4, ?_⟩
        · simp only [h1, renderAll_append, renderAll, Evt.render, str_append_empty,
            str_append_assoc]
        · simpa [sfxCount_append, sfxCount] using h3
        · intro hp
          simp only at hp
          rw [runEvts_append, h5 hp]
          rename_i tag other rest hq hcond
          simp only [Option.bind_eq_bind, Option.some_bind]
          by_cases hc :
              (!(isVoidTag tag || isOptionalVoidTag tag || lastIsSlash other)) = true
          · simp [runEvts, hc]
          · simp only [Bool.not_eq_true] at hc
            simp [runEvts, hc]

/-! ## Frame lemmas for `flushWord` -/

theorem flushWord_i (length : Nat) (opts : Options) (st : St) :
    (flushWord length opts st).2.i = st.i := by
  unfold flushWord openTags
  dsimp only
  repeat' split
  all_goals simp [openTagsF_i]

theorem flushWord_cwEmpty (length : Nat) (opts : Options) (st : St) :
    (flushWord length opts st).2.cwEmpty = st.cwEmpty := by
  unfold flushWord openTags
  dsimp only
  repeat' split
  all_goals simp [openTagsF_cwEmpty]

theorem flushWord_false (length : Nat) (opts : Options) (st : St)
    (h : (flushWord length opts st).1 = false) :
    (flushWord length opts st).2 = st := by
  unfold flushWord openTags at *
  dsimp only at h ⊢
  repeat' split at h <;> simp_all
  repeat' split
  all_goals first
  | omega
  | simp_all

theorem flushWord_inv (length : Nat) (opts : Options) (st : St) (h : Inv length st) :
    Inv length (flushWord length opts st).2 := by
  obtain ⟨g1, g2, g3, g4, g5⟩ := openTagsF_inv length st.openedQueue.length false st h
  unfold flushWord openTags
  dsimp only
  split
  · split
    · exact h
    · split
      · exact h
      · rename_i hcw haddable
        refine ⟨?_, g2, ?_, ?_, ?_⟩
        · simp only [g1, renderAll_append, renderAll, Evt.render, str_append_empty,
            str_append_assoc]
        · simpa [sfxCount_append, sfxCount] using g3
        · have hmin : min (length - st.current) st.cw.length ≤ length - st.current :=
            Nat.min_le_left _ _
          have hcur : (openTagsF st.openedQueue.length false st).current = st.current :=
            openTagsF_current _ _ _
          simp only [hcur]
          omega
        · intro hp
          simp only at hp
          rw [runEvts_append, g5 hp]
          simp [runEvts]
  · split
    · exact h
    · split
      · rename_i hcw hle
        refine ⟨?_, g2, ?_, ?_, ?_⟩
        · simp only [g1, renderAll_append, renderAll, Evt.render, str_append_empty,
            str_append_assoc]
        · simpa [sfxCount_append, sfxCount] using g3
        · have hcur : (openTagsF st.openedQueue.length false st).current = st.current :=
            openTagsF_current _ _ _
          simp only [hcur]
          omega
        · intro hp
          simp only at hp
          rw [runEvts_append, g5 hp]
          simp [runEvts]
      · exact h


theorem scanTagName_ge (chars : List Char) (fuel i : Nat) :
    i ≤ (scanTagName chars fuel i).2.1 := by
  induction fuel generalizing i with
  | zero => exact Nat.le_refl i
  | succ fuel ih =>
    unfold scanTagName
    split
    · dsimp only
      split
      · exact Nat.le_succ i
      · exact Nat.le_trans (Nat.le_succ i) (ih (i + 1))
    · exact Nat.le_refl i

theorem scanTagOther_ge (chars : List Char) (fuel i : Nat) :
    i ≤ (scanTagOther chars fuel i).2.1 := by
  induction fuel generalizing i with
  | zero => exact Nat.le_refl i
  | succ fuel ih =>
    unfold scanTagOther
    split
    · dsimp only
      split
      · exact Nat.le_succ i
      · exact Nat.le_trans (Nat.le_succ i) (ih (i + 1))
    · exact Nat.le_refl i

theorem closeTagScan_ge (chars : List Char) (fuel i : Nat) :
    i ≤ (closeTagScan chars fuel i).2 := by
  induction fuel generalizing i with
  | zero => exact Nat.le_refl i
  | succ fuel ih =>
    unfold closeTagScan
    split
    · dsimp only
      split
      · exact Nat.le_succ i
      · exact Nat.le_trans (Nat.le_succ i) (ih (i + 1))
    · exact Nat.le_refl i

theorem entityScan_ge (chars : List Char) (offset : Nat) (fuel i : Nat)
    (h : offset + 1 ≤ i) : offset + 1 ≤ (entityScan chars offset fuel i).1 := by
  induction fuel generalizing i with
  | zero => exact h
  | succ fuel ih =>
    unfold entityScan
    split
    · dsimp only
      split
      · exact Nat.le_refl _
      · split
        · exact Nat.le_trans h (Nat.le_succ i)
        · exact ih (i + 1) (Nat.le_trans h (Nat.le_succ i))
    · exact h

theorem openTagScan_ge (chars : List Char) (i : Nat) (cw : List Char) :
    i ≤ (openTagScan chars i cw).2.1 := by
  unfold openTagScan
  dsimp only
  repeat' split
  all_goals first
  | exact Nat.le_refl _
  | exact Nat.le_trans (scanTagName_ge chars chars.length i)
      (scanTagOther_ge chars chars.length _)
  | exact scanTagName_ge chars chars.length i

theorem commentLoop_pos_exit (chars : List Char) (fuel i cur : Nat) (acc : String)
    (hfuel : 0 < fuel) (h : chars[i]? = some '-') :
    commentLoop chars fuel i cur acc = some (i, cur, acc) := by
  cases fuel with
  | zero => exact absurd hfuel (by omega)
  | succ fuel =>
    unfold commentLoop
    simp [h]

theorem popUntil_none_iff (target : String) (l : List String) :
    popUntil target l = none ↔ target ∉ l := by
  induction l with
  | nil => simp [popUntil]
  | cons t rest ih =>
    by_cases h : t = target
    · subst h
      simp [popUntil]
    · simp [popUntil, h, ih, Ne.symm h]

theorem popUntil_head (target : String) (l : List String)
    (h : l.head? = some target) : popUntil target l = some l.tail := by
  cases l with
  | nil => simp at h
  | cons t r =>
    simp at h
    simp [popUntil, h]




theorem getElem?_some_lt (l : List Char) (i : Nat) (c : Char)
    (h : l[i]? = some c) : i < l.length :=
  (List.getElem?_eq_some.mp h).1

theorem emitCloseTag_i (length : Nat) (opts : Options) (tag : String) (st : St) :
    (emitCloseTag length opts tag st).i = st.i := by
  unfold emitCloseTag addSuffix
  dsimp only
  repeat' split
  all_goals rfl

theorem stepFn_cont_progress (chars : List Char) (length : Nat) (opts : Options)
    (st st' : St) (h : stepFn chars length opts st = .cont st') :
    st.i < st'.i := by
  unfold stepFn at h
  split at h
  · exact absurd h (by simp)
  · rename_i c hc
    dsimp only at h
    split at h
    -- c = '<'
    · split at h
      -- flushWord failed: brk, not cont
      · exact absurd h (by simp)
      · rename_i stf hf
        have hfi : stf.i = st.i + 1 := by
          have := flushWord_i length opts { st with i := st.i + 1 }
          rw [hf] at this
          exact this
        split at h
        -- chars[stf.i] = '!'
        · split at h
          -- comment
          · rename_i hcomm
            have hdash : chars[stf.i + 2]? = some '-' := by
              have := (Bool.and_eq_true _ _).mp hcomm
              exact eq_of_beq this.2
            have hlt : stf.i + 2 < chars.length :=
              getElem?_some_lt chars _ _ hdash
            rw [commentLoop_pos_exit chars _ _ _ _ (by omega) hdash] at h
            simp only [Step.cont.injEq] at h
            subst h
            simp only []
            omega
          -- literal '<'
          · simp only [Step.cont.injEq] at h
            subst h
            simp only []
            omega
        -- chars[stf.i] = '/'
        · split at h
          · split at h
            · exact absurd h (by simp)
            · rename_i rest hpop
              simp only [Step.cont.injEq] at h
              subst h
              rw [emitCloseTag_i]
              simp only []
              have h1 : (openTags false stf).i = stf.i := openTagsF_i _ _ _
              have h2 := closeTagScan_ge chars chars.length
                ((openTags false stf).i + 1)
              omega
          · simp only [Step.cont.injEq] at h
            subst h
            rw [emitCloseTag_i]
            simp only []
            have h1 : (openTags false stf).i = stf.i := openTagsF_i _ _ _
            have h2 := closeTagScan_ge chars chars.length
              ((openTags false stf).i + 1)
            omega
        -- open tag attempt
        · split at h
          · rename_i t i' cw' hscan
            simp only [Step.cont.injEq] at h
            subst h
            have := openTagScan_ge chars stf.i stf.cw
            rw [hscan] at this
            dsimp only at this
            simp only []
            omega
          · rename_i i' cw' hscan
            simp only [Step.cont.injEq] at h
            subst h
            have := openTagScan_ge chars stf.i stf.cw
            rw [hscan] at this
            dsimp only at this
            simp only []
            omega
    · split at h
      -- c = '&'
      · simp only [Step.cont.injEq] at h
        subst h
        simp only []
        have := entityScan_ge chars (st.i + 1 - 1) (chars.length - (st.i + 1)) (st.i + 1)
          (by omega)
        omega
      -- plain text
      · split at h
        · exact absurd h (by simp)
        · rename_i stf hf
          have hfi : stf.i = st.i + 1 := by
            split at hf
            · have := flushWord_i length opts { st with i := st.i + 1, cwEmpty := true }
              rw [hf] at this
              exact this
            · simp only [Prod.mk.injEq] at hf
              rw [← hf.2]
          split at h <;>
          · simp only [Step.cont.injEq] at h
            subst h
            simp only []
            omega



theorem stepFn_not_hang (chars : List Char) (length : Nat) (opts : Options)
    (st : St) (hi : st.i < chars.length) :
    stepFn chars length opts st ≠ Step.hang := by
  unfold stepFn
  split
  · rename_i hc
    have : chars[st.i]? = some chars[st.i] := List.getElem?_eq_getElem hi
    rw [hc] at this
    exact absurd this (by simp)
  · rename_i c hc
    dsimp only
    split
    · split
      · simp
      · rename_i stf hf
        split
        · split
          · rename_i hcomm
            have hdash : chars[stf.i + 2]? = some '-' := by
              have := (Bool.and_eq_true _ _).mp hcomm
              exact eq_of_beq this.2
            have hlt : stf.i + 2 < chars.length :=
              getElem?_some_lt chars _ _ hdash
            rw [commentLoop_pos_exit chars _ _ _ _ (by omega) hdash]
            simp
          · simp
        · split
          · split <;> simp
          · simp
        · split <;> simp
    · split
      · simp
      · split
        · simp
        · split <;> simp

theorem mainLoop_total (chars : List Char) (length : Nat) (opts : Options)
    (fuel : Nat) (st : St) (h : chars.length - st.i < fuel) :
    ∃ r, mainLoop chars length opts fuel st = some r := by
  induction fuel generalizing st with
  | zero => exact absurd h (by omega)
  | succ fuel ih =>
    unfold mainLoop
    split
    · rename_i hguard
      cases hstep : stepFn chars length opts st with
      | cont st' =>
        have hprog := stepFn_cont_progress chars length opts st st' hstep
        exact ih st' (by omega)
      | brk st' => exact ⟨_, rfl⟩
      | fail e => exact ⟨_, rfl⟩
      | hang => exact absurd hstep (stepFn_not_hang chars length opts st hguard.2)
    · exact ⟨_, rfl⟩

theorem htmlRun_total (source : String) (length : Nat) (opts : Options) :
    ∃ r, htmlRun source length opts = some r := by
  unfold htmlRun
  dsimp only
  obtain ⟨r, hr⟩ := mainLoop_total source.data length opts (source.data.length + 1)
    initSt (by simp [initSt])
  rw [hr]
  cases r with
  | error e => exact ⟨_, rfl⟩
  | ok st => exact ⟨_, rfl⟩




theorem flushWord_current_le (length : Nat) (opts : Options) (st : St)
    (h : st.current ≤ length) : (flushWord length opts st).2.current ≤ length := by
  unfold flushWord openTags
  dsimp only
  have hcur : (openTagsF st.openedQueue.length false st).current = st.current :=
    openTagsF_current _ _ _
  repeat' split
  all_goals simp only [hcur]
  all_goals first
  | exact h
  | (have hmin : min (length - st.current) st.cw.length ≤ length - st.current :=
      Nat.min_le_left _ _
     omega)

theorem sfxCount_nil : sfxCount [] = 0 := rfl

theorem sfxCount_cons_sfx (s : String) (es : List Evt) :
    sfxCount (Evt.sfx s :: es) = sfxCount es + 1 := by
  simp [sfxCount, List.filter_cons]

theorem sfxCount_cons_txt (s : String) (es : List Evt) :
    sfxCount (Evt.txt s :: es) = sfxCount es := by
  simp [sfxCount, List.filter_cons]

theorem sfxCount_cons_tagOpen (t o : String) (b : Bool) (es : List Evt) :
    sfxCount (Evt.tagOpen t o b :: es) = sfxCount es := by
  simp [sfxCount, List.filter_cons]

theorem sfxCount_cons_tagClose (s : String) (b : Bool) (es : List Evt) :
    sfxCount (Evt.tagClose s b :: es) = sfxCount es := by
  simp [sfxCount, List.filter_cons]

theorem emitCloseTag_inv (length : Nat) (opts : Options) (tag : String) (st : St)
    (h1 : st.result = renderAll st.events)
    (h2 : st.suffixCount = if st.suffixAdded then 1 else 0)
    (h3 : sfxCount st.events = st.suffixCount)
    (h4 : st.current ≤ length + 1)
    (h5 : st.popClean = true →
      runEvts st.events [] =
        some ((if haveToHaveClosingTag tag then ["</" ++ tag ++ ">"] else [])
          ++ st.closeQueue)) :
    Inv length (emitCloseTag length opts tag st) := by
  unfold emitCloseTag addSuffix
  dsimp only
  split
  · -- inline suffix position reached
    split
    · -- opts.suffix = some s
      rename_i s hs
      split
      · -- not yet added: append
        rename_i hadd
        refine ⟨?_, ?_, ?_, h4, ?_⟩
        · simp only [h1, renderAll_append, renderAll, Evt.render, str_append_empty,
            str_append_assoc]
        · simp only [Bool.not_eq_true'] at hadd
          simp [hadd] at h2
          simp [h2]
        · simp only [Bool.not_eq_true'] at hadd
          simp [hadd] at h2
          simp [sfxCount_append, sfxCount_nil, sfxCount_cons_sfx, sfxCount_cons_tagClose, h3, h2]
        · intro hp
          simp only at hp
          rw [runEvts_append, runEvts_append, h5 hp]
          by_cases hh : haveToHaveClosingTag tag = true
          · simp [runEvts, hh]
          · simp only [Bool.not_eq_true] at hh
            simp [runEvts, hh]
      · refine ⟨?_, h2, ?_, h4, ?_⟩
        · simp only [h1, renderAll_append, renderAll, Evt.render, str_append_empty,
            str_append_assoc]
        · simp [sfxCount_append, sfxCount_nil, sfxCount_cons_sfx, sfxCount_cons_tagClose, h3]
        · intro hp
          simp only at hp
          rw [runEvts_append, h5 hp]
          by_cases hh : haveToHaveClosingTag tag = true
          · simp [runEvts, hh]
          · simp only [Bool.not_eq_true] at hh
            simp [runEvts, hh]
    · refine ⟨?_, h2, ?_, h4, ?_⟩
      · simp only [h1, renderAll_append, renderAll, Evt.render, str_append_empty,
          str_append_assoc]
      · simp [sfxCount_append, sfxCount_nil, sfxCount_cons_sfx, sfxCount_cons_tagClose, h3]
      · intro hp
        simp only at hp
        rw [runEvts_append, h5 hp]
        by_cases hh : haveToHaveClosingTag tag = true
        · simp [runEvts, hh]
        · simp only [Bool.not_eq_true] at hh
          simp [runEvts, hh]
  · refine ⟨?_, h2, ?_, h4, ?_⟩
    · simp only [h1, renderAll_append, renderAll, Evt.render, str_append_empty,
        str_append_assoc]
    · simp [sfxCount_append, sfxCount_nil, sfxCount_cons_sfx, sfxCount_cons_tagClose, h3]
    · intro hp
      simp only at hp
      rw [runEvts_append, h5 hp]
      by_cases hh : haveToHaveClosingTag tag = true
      · simp [runEvts, hh]
      · simp only [Bool.not_eq_true] at hh
        simp [runEvts, hh]




theorem stepFn_brk_inv (chars : List Char) (length : Nat) (opts : Options)
    (st st' : St) (hInv : Inv length st)
    (h : stepFn chars length opts st = .brk st') : Inv length st' := by
  unfold stepFn at h
  split at h
  · exact absurd h (by simp)
  · rename_i c hc
    dsimp only at h
    split at h
    · split at h
      · rename_i stf hf
        simp only [Step.brk.injEq] at h
        subst h
        have h1 : (flushWord length opts { st with i := st.i + 1 }).1 = false := by
          rw [hf]
        have h2 := flushWord_false length opts { st with i := st.i + 1 } h1
        rw [hf] at h2
        dsimp only at h2
        rw [h2]
        exact hInv
      · split at h
        · split at h
          · split at h
            · exact absurd h (by simp)
            · exact absurd h (by simp)
          · exact absurd h (by simp)
        · split at h
          · split at h
            · exact absurd h (by simp)
            · exact absurd h (by simp)
          · exact absurd h (by simp)
        · split at h
          · exact absurd h (by simp)
          · exact absurd h (by simp)
    · split at h
      · exact absurd h (by simp)
      · split at h
        · rename_i stf hf
          simp only [Step.brk.injEq] at h
          subst h
          split at hf
          · have h1 : (flushWord length opts
                { st with i := st.i + 1, cwEmpty := true }).1 = false := by
              rw [hf]
            have h2 := flushWord_false length opts
              { st with i := st.i + 1, cwEmpty := true } h1
            rw [hf] at h2
            dsimp only at h2
            rw [h2]
            exact hInv
          · simp only [Prod.mk.injEq] at hf
            exact absurd hf.1 (by simp)
        · split at h
          · exact absurd h (by simp)
          · exact absurd h (by simp)

theorem stepFn_cont_inv (chars : List Char) (length : Nat) (opts : Options)
    (st st' : St) (hcur : st.current < length) (hInv : Inv length st)
    (h : stepFn chars length opts st = .cont st') : Inv length st' := by
  unfold stepFn at h
  split at h
  · exact absurd h (by simp)
  · rename_i c hc
    dsimp only at h
    split at h
    -- c = '<'
    · split at h
      · exact absurd h (by simp)
      · rename_i stf hf
        have hInvf : Inv length stf := by
          have := flushWord_inv length opts { st with i := st.i + 1 } hInv
          rw [hf] at this
          exact this
        have hcurf : stf.current ≤ length := by
          have := flushWord_current_le length opts { st with i := st.i + 1 }
            (Nat.le_of_lt hcur)
          rw [hf] at this
          exact this
        obtain ⟨f1, f2, f3, f4, f5⟩ := hInvf
        split at h
        -- chars[stf.i] = '!'
        · split at h
          · -- comment
            rename_i hcomm
            have hdash : chars[stf.i + 2]? = some '-' := by
              have := (Bool.and_eq_true _ _).mp hcomm
              exact eq_of_beq this.2
            rw [commentLoop_pos_exit chars _ _ _ _
              (by have := getElem?_some_lt chars _ _ hdash; omega) hdash] at h
            simp only [Step.cont.injEq] at h
            subst h
            refine ⟨?_, f2, ?_, f4, ?_⟩
            · simp only [f1, renderAll_append, renderAll, Evt.render, str_append_empty,
                str_append_assoc]
            · simp [sfxCount_append, sfxCount_nil, sfxCount_cons_txt, f3]
            · intro hp
              simp only at hp
              rw [runEvts_append, f5 hp]
              simp [runEvts]
          · -- literal '<'
            simp only [Step.cont.injEq] at h
            subst h
            refine ⟨?_, f2, ?_, by simp only []; omega, ?_⟩
            · simp only [f1, renderAll_append, renderAll, Evt.render, str_append_empty,
                str_append_assoc]
            · simp [sfxCount_append, sfxCount_nil, sfxCount_cons_txt, f3]
            · intro hp
              simp only at hp
              rw [runEvts_append, f5 hp]
              simp [runEvts]
        -- chars[stf.i] = '/'
        · have hInv2 : Inv length (openTags false stf) :=
            openTagsF_inv length _ false stf ⟨f1, f2, f3, f4, f5⟩
          obtain ⟨g1, g2, g3, g4, g5⟩ := hInv2
          split at h
          · -- haveToHaveClosingTag = true
            rename_i hneed
            split at h
            · exact absurd h (by simp)
            · rename_i rest hpop
              simp only [Step.cont.injEq] at h
              subst h
              apply emitCloseTag_inv <;> dsimp only
              · exact g1
              · exact g2
              · exact g3
              · exact g4
              · intro hp
                have hp2 := (Bool.and_eq_true _ _).mp hp
                have hclean : (openTags false stf).closeQueue.head? =
                    some ("</" ++ (closeTagScan chars chars.length
                      ((openTags false stf).i + 1)).1 ++ ">") :=
                  eq_of_beq hp2.2
                have htail := popUntil_head _ _ hclean
                rw [hpop] at htail
                simp only [Option.some.injEq] at htail
                rw [g5 hp2.1, hneed]
                cases hq : (openTags false stf).closeQueue with
                | nil => rw [hq] at hclean; simp at hclean
                | cons t r =>
                  rw [hq] at hclean
                  simp only [List.head?_cons, Option.some.injEq] at hclean
                  rw [hq] at htail
                  simp only [List.tail_cons] at htail
                  simp [hclean, htail]
          · -- no closing needed
            rename_i hneed
            simp only [Step.cont.injEq] at h
            subst h
            apply emitCloseTag_inv <;> dsimp only
            · exact g1
            · exact g2
            · exact g3
            · exact g4
            · intro hp
              rw [g5 hp]
              simp only [Bool.not_eq_true] at hneed
              rw [hneed]
              simp
        -- open tag attempt
        · split at h <;>
          · simp only [Step.cont.injEq] at h
            subst h
            exact ⟨f1, f2, f3, f4, f5⟩
    · split at h
      -- c = '&'
      · simp only [Step.cont.injEq] at h
        subst h
        obtain ⟨f1, f2, f3, f4, f5⟩ := hInv
        refine ⟨?_, f2, ?_, by simp only []; omega, ?_⟩
        · simp only [f1, renderAll_append, renderAll, Evt.render, str_append_empty,
            str_append_assoc]
        · simp [sfxCount_append, sfxCount_nil, sfxCount_cons_txt, f3]
        · intro hp
          simp only at hp
          rw [runEvts_append, runEvts_append, f5 hp]
          simp [runEvts]
      -- plain text
      · split at h
        · exact absurd h (by simp)
        · rename_i stf hf
          have hInvf : Inv length stf := by
            split at hf
            · have := flushWord_inv length opts
                { st with i := st.i + 1, cwEmpty := true } hInv
              rw [hf] at this
              exact this
            · simp only [Prod.mk.injEq] at hf
              rw [← hf.2]
              exact hInv
          obtain ⟨f1, f2, f3, f4, f5⟩ := hInvf
          split at h <;>
          · simp only [Step.cont.injEq] at h
            subst h
            exact ⟨f1, f2, f3, f4, f5⟩




theorem runEvts_closeAll (cq : List String) :
    runEvts (cq.map (Evt.tagClose · true)) cq = some [] := by
  induction cq with
  | nil => simp [runEvts]
  | cons s rest ih => simp [runEvts, ih]

theorem renderAll_closes (cq : List String) :
    renderAll (cq.map (Evt.tagClose · true)) = joinAll cq := by
  induction cq with
  | nil => rfl
  | cons s rest ih => simp [renderAll, joinAll, Evt.render, ih]

theorem sfxCount_closes (cq : List String) :
    sfxCount (cq.map (Evt.tagClose · true)) = 0 := by
  induction cq with
  | nil => rfl
  | cons s rest ih => simp [sfxCount_cons_tagClose, ih]

theorem mainLoop_inv (chars : List Char) (length : Nat) (opts : Options)
    (fuel : Nat) (st stF : St) (hInv : Inv length st)
    (h : mainLoop chars length opts fuel st = some (.ok stF)) : Inv length stF := by
  induction fuel generalizing st with
  | zero => simp [mainLoop] at h
  | succ fuel ih =>
    unfold mainLoop at h
    split at h
    · rename_i hguard
      cases hstep : stepFn chars length opts st with
      | cont st' =>
        rw [hstep] at h
        exact ih st' (stepFn_cont_inv chars length opts st st' hguard.1 hInv hstep) h
      | brk st' =>
        rw [hstep] at h
        simp only [Option.some.injEq, Except.ok.injEq] at h
        rw [← h]
        exact stepFn_brk_inv chars length opts st st' hInv hstep
      | fail e =>
        rw [hstep] at h
        simp at h
      | hang =>
        rw [hstep] at h
        simp at h
    · simp only [Option.some.injEq, Except.ok.injEq] at h
      rw [← h]
      exact hInv

theorem finalize_props (length : Nat) (opts : Options) (st : St) (hInv : Inv length st) :
    (finalize length opts st).result = renderAll (finalize length opts st).events ∧
    (finalize length opts st).suffixCount =
      (if (finalize length opts st).suffixAdded then 1 else 0) ∧
    sfxCount (finalize length opts st).events = (finalize length opts st).suffixCount ∧
    (finalize length opts st).current ≤ length + 1 ∧
    ((finalize length opts st).popClean = true →
      runEvts (finalize length opts st).events [] = some []) := by
  have hInv1 : Inv length (openTags true st) := openTagsF_inv length _ true st hInv
  have hInv2 : Inv length (flushWord length opts (openTags true st)).2 :=
    flushWord_inv length opts _ hInv1
  obtain ⟨g1, g2, g3, g4, g5⟩ := hInv2
  unfold finalize
  dsimp only
  split
  · -- suffix before closing tags
    split
    · -- flushed: no suffix
      refine ⟨?_, g2, ?_, g4, ?_⟩
      · simp only [g1, renderAll_append, renderAll_closes]
      · simp [sfxCount_append, sfxCount_closes, g3]
      · intro hp
        simp only at hp
        rw [runEvts_append, g5 hp]
        simp [runEvts_closeAll]
    · -- not flushed: addSuffix on the result, then the closing tags
      unfold addSuffix
      dsimp only
      split
      · rename_i s hs
        split
        · -- suffix appended
          rename_i hadd
          simp only [Bool.not_eq_true'] at hadd
          simp only [hadd, if_false] at g2
          refine ⟨?_, by simp [g2], ?_, g4, ?_⟩
          · simp only [g1, renderAll_append, renderAll, Evt.render, str_append_empty,
              str_append_assoc, renderAll_closes]
          · simp [sfxCount_append, sfxCount_closes, sfxCount_nil, sfxCount_cons_sfx, g3, g2]
          · intro hp
            simp only at hp
            rw [runEvts_append, runEvts_append, g5 hp]
            simp [runEvts, runEvts_closeAll]
        · -- latch already set
          refine ⟨?_, g2, ?_, g4, ?_⟩
          · simp only [g1, renderAll_append, renderAll_closes]
          · simp [sfxCount_append, sfxCount_closes, g3]
          · intro hp
            simp only at hp
            rw [runEvts_append, g5 hp]
            simp [runEvts_closeAll]
      · -- no suffix configured
        refine ⟨?_, g2, ?_, g4, ?_⟩
        · simp only [g1, renderAll_append, renderAll_closes]
        · simp [sfxCount_append, sfxCount_closes, g3]
        · intro hp
          simp only at hp
          rw [runEvts_append, g5 hp]
          simp [runEvts_closeAll]
  · -- suffix after closing tags
    split
    · -- flushed: no suffix
      refine ⟨?_, g2, ?_, g4, ?_⟩
      · simp only [g1, renderAll_append, renderAll_closes]
      · simp [sfxCount_append, sfxCount_closes, g3]
      · intro hp
        simp only at hp
        rw [runEvts_append, g5 hp]
        simp [runEvts_closeAll]
    · unfold addSuffix
      dsimp only
      split
      · rename_i s hs
        split
        · rename_i hadd
          simp only [Bool.not_eq_true'] at hadd
          simp only [hadd, if_false] at g2
          refine ⟨?_, by simp [g2], ?_, g4, ?_⟩
          · simp only [g1, renderAll_append, renderAll, Evt.render, str_append_empty,
              str_append_assoc, renderAll_closes]
          · simp [sfxCount_append, sfxCount_closes, sfxCount_nil, sfxCount_cons_sfx, g3, g2]
          · intro hp
            simp only at hp
            rw [runEvts_append, runEvts_append, g5 hp]
            simp [runEvts, runEvts_closeAll]
        · refine ⟨?_, g2, ?_, g4, ?_⟩
          · simp only [g1, renderAll_append, renderAll_closes]
          · simp [sfxCount_append, sfxCount_closes, g3]
          · intro hp
            simp only at hp
            rw [runEvts_append, g5 hp]
            simp [runEvts_closeAll]
      · refine ⟨?_, g2, ?_, g4, ?_⟩
        · simp only [g1, renderAll_append, renderAll_closes]
        · simp [sfxCount_append, sfxCount_closes, g3]
        · intro hp
          simp only at hp
          rw [runEvts_append, g5 hp]
          simp [runEvts_closeAll]

theorem initSt_inv (length : Nat) : Inv length initSt := by
  refine ⟨rfl, rfl, rfl, Nat.zero_le _, ?_⟩
  intro hp
  rfl

theorem htmlRun_ok_props (source : String) (length : Nat) (opts : Options) (stF : St)
    (h : htmlRun source length opts = some (.ok stF)) :
    stF.result = renderAll stF.events ∧
    stF.suffixCount = (if stF.suffixAdded then 1 else 0) ∧
    sfxCount stF.events = stF.suffixCount ∧
    stF.current ≤ length + 1 ∧
    (stF.popClean = true → runEvts stF.events [] = some []) := by
  unfold htmlRun at h
  dsimp only at h
  split at h
  · simp at h
  · simp at h
  · rename_i st hml
    simp only [Option.some.injEq, Except.ok.injEq] at h
    have := mainLoop_inv source.data length opts (source.data.length + 1) initSt st
      (initSt_inv length) hml
    rw [← h]
    exact finalize_props length opts st this




theorem openTagsF_nil (fuel : Nat) (b : Bool) (st : St) (h : st.openedQueue = []) :
    openTagsF fuel b st = st := by
  cases fuel with
  | zero => rfl
  | succ fuel =>
    unfold openTagsF
    rw [h]

theorem flushWord_false_bw (length : Nat) (opts : Options) (st : St)
    (hbw : opts.breakWords = true) (h : (flushWord length opts st).1 = false) :
    length ≤ st.current ∧ st.cw ≠ [] := by
  unfold flushWord at h
  rw [hbw, if_pos rfl] at h
  dsimp only at h
  split at h
  · simp at h
  · split at h
    · rename_i hcwlen hmin0
      constructor
      · omega
      · intro hc
        exact hcwlen (by rw [hc]; rfl)
    · simp at h

theorem flushWord_text_frame (length : Nat) (opts : Options) (st : St)
    (hbw : opts.breakWords = true) (hq : st.openedQueue = []) :
    (flushWord length opts st).2.openedQueue = [] ∧
    (flushWord length opts st).2.closeQueue = st.closeQueue ∧
    (flushWord length opts st).2.result.data ++ (flushWord length opts st).2.cw
      = st.result.data ++ st.cw ∧
    (st.result.data.length = st.current →
      (flushWord length opts st).2.result.data.length
        = (flushWord length opts st).2.current) ∧
    (flushWord length opts st).2.suffixAdded = st.suffixAdded := by
  unfold flushWord
  rw [hbw, if_pos rfl]
  dsimp only
  split
  · exact ⟨hq, rfl, rfl, fun h => h, rfl⟩
  · split
    · exact ⟨hq, rfl, rfl, fun h => h, rfl⟩
    · rw [openTags, openTagsF_nil _ _ _ hq]
      refine ⟨hq, rfl, ?_, ?_, rfl⟩
      · simp [String.data_append, List.append_assoc, List.take_append_drop]
      · intro h
        simp only [String.data_append, List.length_append, List.length_take]
        omega

theorem stepFn_textInv (chars : List Char) (length : Nat) (opts : Options) (st : St)
    (hbw : opts.breakWords = true)
    (hnc : ∀ c, chars[st.i]? = some c → c ≠ '<' ∧ c ≠ '&')
    (hcur : st.current < length) (hi : st.i < chars.length)
    (hP : TextInv chars length st) :
    (∀ st', stepFn chars length opts st = .cont st' → TextInv chars length st') ∧
    (∀ st', stepFn chars length opts st = .brk st' → False) := by
  obtain ⟨p1, p2, p3, p4, p5, p6, p7⟩ := hP
  have hsome : chars[st.i]? = some chars[st.i] := List.getElem?_eq_getElem hi
  have hne := hnc chars[st.i] hsome
  unfold stepFn
  rw [hsome]
  dsimp only
  rw [if_neg (by simpa using hne.1), if_neg (by simpa using hne.2)]
  constructor
  · intro st' h
    split at h
    · simp at h
    · rename_i stt hcond
      have hfacts : stt.openedQueue = [] ∧ stt.closeQueue = [] ∧
          stt.result.data ++ stt.cw = chars.take st.i ∧
          stt.result.data.length = stt.current ∧
          stt.current ≤ length ∧ stt.suffixAdded = false ∧
          stt.i = st.i + 1 := by
        split at hcond
        · obtain ⟨q1, q2, q3, q4, q5⟩ := flushWord_text_frame length opts
            { st with i := st.i + 1, cwEmpty := true } hbw p1
          rw [hcond] at q1 q2 q3 q4 q5
          dsimp only at q1 q2 q3 q4 q5
          have hcle : stt.current ≤ length := by
            have := flushWord_current_le length opts
              { st with i := st.i + 1, cwEmpty := true } (Nat.le_of_lt hcur)
            rw [hcond] at this
            exact this
          have hii : stt.i = st.i + 1 := by
            have := flushWord_i length opts { st with i := st.i + 1, cwEmpty := true }
            rw [hcond] at this
            exact this
          exact ⟨q1, by rw [q2, p2], by rw [q3, p3], q4 p4, hcle,
            by rw [q5, p6], hii⟩
        · simp only [Prod.mk.injEq, true_and] at hcond
          rw [← hcond]
          exact ⟨p1, p2, p3, p4, Nat.le_of_lt hcur, p6, rfl⟩
      obtain ⟨q1, q2, q3, q4, q5, q6, q7⟩ := hfacts
      split at h <;>
      · simp only [Step.cont.injEq] at h
        subst h
        refine ⟨q1, q2, ?_, q4, q5, q6, ?_⟩
        · simp only [← List.append_assoc, q3, q7]
          rw [List.take_succ, hsome]
          rfl
        · simp only [q7]
          omega
  · intro st' h
    split at h
    · rename_i stt hcond
      split at hcond
      · have := flushWord_false_bw length opts
          { st with i := st.i + 1, cwEmpty := true } hbw (by rw [hcond])
        exact absurd this.1 (by simp only []; omega)
      · simp only [Prod.mk.injEq] at hcond
        exact absurd hcond.1 (by simp)
    · simp at h



theorem mainLoop_textInv (chars : List Char) (length : Nat) (opts : Options)
    (fuel : Nat) (st stL : St)
    (hbw : opts.breakWords = true)
    (hnm : ∀ c ∈ chars, c ≠ '<' ∧ c ≠ '&')
    (hP : TextInv chars length st)
    (h : mainLoop chars length opts fuel st = some (.ok stL)) :
    TextInv chars length stL ∧ ¬(stL.current < length ∧ stL.i < chars.length) := by
  induction fuel generalizing st with
  | zero => simp [mainLoop] at h
  | succ fuel ih =>
    unfold mainLoop at h
    split at h
    · rename_i hguard
      have hnc : ∀ c, chars[st.i]? = some c → c ≠ '<' ∧ c ≠ '&' := by
        intro c hc
        obtain ⟨hlt, heq⟩ := List.getElem?_eq_some.mp hc
        rw [← heq]
        exact hnm chars[st.i] (List.getElem_mem hlt)
      have hstep := stepFn_textInv chars length opts st hbw hnc hguard.1 hguard.2 hP
      cases hs : stepFn chars length opts st with
      | cont st' =>
        rw [hs] at h
        exact ih st' (hstep.1 st' hs) h
      | brk st' => exact absurd hs (fun hh => hstep.2 st' hh)
      | fail e =>
        rw [hs] at h
        simp at h
      | hang =>
        rw [hs] at h
        simp at h
    · rename_i hguard
      simp only [Option.some.injEq, Except.ok.injEq] at h
      rw [← h]
      exact ⟨hP, hguard⟩




theorem stepFn_text_no_fail (chars : List Char) (length : Nat) (opts : Options) (st : St)
    (hnc : ∀ c, chars[st.i]? = some c → c ≠ '<' ∧ c ≠ '&')
    (hi : st.i < chars.length) :
    ∀ e, stepFn chars length opts st ≠ .fail e := by
  intro e
  have hsome : chars[st.i]? = some chars[st.i] := List.getElem?_eq_getElem hi
  have hne := hnc chars[st.i] hsome
  unfold stepFn
  rw [hsome]
  dsimp only
  rw [if_neg (by simpa using hne.1), if_neg (by simpa using hne.2)]
  intro h
  split at h
  · simp at h
  · split at h <;> simp at h

theorem mainLoop_text_ok (chars : List Char) (length : Nat) (opts : Options)
    (fuel : Nat) (st : St) (r : Except HtmlSubstringError St)
    (hbw : opts.breakWords = true)
    (hnm : ∀ c ∈ chars, c ≠ '<' ∧ c ≠ '&')
    (hP : TextInv chars length st)
    (h : mainLoop chars length opts fuel st = some r) :
    ∃ stL, r = .ok stL := by
  induction fuel generalizing st with
  | zero => simp [mainLoop] at h
  | succ fuel ih =>
    unfold mainLoop at h
    split at h
    · rename_i hguard
      have hnc : ∀ c, chars[st.i]? = some c → c ≠ '<' ∧ c ≠ '&' := by
        intro c hc
        obtain ⟨hlt, heq⟩ := List.getElem?_eq_some.mp hc
        rw [← heq]
        exact hnm chars[st.i] (List.getElem_mem hlt)
      have hstep := stepFn_textInv chars length opts st hbw hnc hguard.1 hguard.2 hP
      cases hs : stepFn chars length opts st with
      | cont st' =>
        rw [hs] at h
        exact ih st' (hstep.1 st' hs) h
      | brk st' => exact absurd hs (fun hh => hstep.2 st' hh)
      | fail e => exact absurd hs (stepFn_text_no_fail chars length opts st hnc hguard.2 e)
      | hang =>
        rw [hs] at h
        simp at h
    · simp only [Option.some.injEq] at h
      exact ⟨st, h.symm⟩

theorem flushWord_final_text (chars : List Char) (length : Nat) (opts : Options)
    (st : St) (hbw : opts.breakWords = true) (hP : TextInv chars length st)
    (hstop : ¬(st.current < length ∧ st.i < chars.length)) :
    (flushWord length opts st).2.result.data = chars.take (min length chars.length) ∧
    ((flushWord length opts st).1 = false → length < chars.length) ∧
    (flushWord length opts st).2.suffixAdded = st.suffixAdded ∧
    (flushWord length opts st).2.closeQueue = st.closeQueue := by
  obtain ⟨p1, p2, p3, p4, p5, p6, p7⟩ := hP
  have hlen : st.current + st.cw.length = st.i := by
    have : (st.result.data ++ st.cw).length = (chars.take st.i).length := by rw [p3]
    simp only [List.length_append, List.length_take] at this
    omega
  unfold flushWord
  rw [hbw, if_pos rfl]
  dsimp only
  split
  · -- empty word buffer
    rename_i hcw
    have hie : st.current = st.i := by omega
    refine ⟨?_, by simp, rfl, rfl⟩
    have hcweq : st.cw = [] := List.eq_nil_of_length_eq_zero hcw
    rw [hcweq, List.append_nil] at p3
    rw [p3]
    by_cases hN : st.i = chars.length
    · have hm : min length chars.length = chars.length := by omega
      rw [hm, hN]
    · have hcl : st.current = length := by
        rcases Decidable.not_and_iff_or_not.mp hstop with hh | hh <;> omega
      have hm : min length chars.length = length := by omega
      rw [hm]
      congr 1
      omega
  · split
    · -- budget exhausted, word pending: no flush
      rename_i hcw hmin
      have hcl : st.current = length := by omega
      refine ⟨?_, by intro _; omega, rfl, rfl⟩
      have : st.result.data = (st.result.data ++ st.cw).take st.result.data.length :=
        (List.take_left st.result.data st.cw).symm
      rw [this, p3, List.take_take, p4, hcl]
      congr 1
      omega
    · -- partial or full flush
      rename_i hcw hmin
      have hcur : st.current < length := by omega
      have hN : st.i = chars.length := by
        rcases Decidable.not_and_iff_or_not.mp hstop with hh | hh <;> omega
      rw [openTags, openTagsF_nil _ _ _ p1]
      refine ⟨?_, by simp, rfl, rfl⟩
      simp only [String.data_append]
      have hchars : chars = st.result.data ++ st.cw := by
        rw [p3, hN, List.take_length]
      rw [hchars]
      have hmin2 : min length (st.result.data.length + st.cw.length) =
          st.result.data.length + min (length - st.current) st.cw.length := by
        omega
      rw [List.length_append, hmin2, List.take_append]



theorem htmlRun_text (source : String) (length : Nat) (sfx : Option String)
    (hnm : ∀ c ∈ source.data, c ≠ '<' ∧ c ≠ '&') :
    ∃ stL stF,
      mainLoop source.data length ⟨true, sfx, false⟩ (source.data.length + 1) initSt
        = some (.ok stL) ∧
      htmlRun source length ⟨true, sfx, false⟩ = some (.ok stF) ∧
      stF.result.data = source.data.take (min length source.data.length)
        ++ (if stF.suffixAdded then (sfx.getD "").data else []) ∧
      (stF.suffixAdded = true ↔
        sfx ≠ none ∧ (flushWord length ⟨true, sfx, false⟩ stL).1 = false) ∧
      (source.data.length ≤ length →
        (flushWord length ⟨true, sfx, false⟩ stL).1 = true) := by
  have hinit : TextInv source.data length initSt :=
    ⟨rfl, rfl, rfl, rfl, Nat.zero_le _, rfl, Nat.zero_le _⟩
  obtain ⟨r0, hr0⟩ := mainLoop_total source.data length ⟨true, sfx, false⟩
    (source.data.length + 1) initSt (by simp [initSt])
  obtain ⟨stL, hok⟩ := mainLoop_text_ok source.data length ⟨true, sfx, false⟩
    (source.data.length + 1) initSt r0 rfl hnm hinit hr0
  subst hok
  obtain ⟨hPL, hstop⟩ := mainLoop_textInv source.data length ⟨true, sfx, false⟩
    (source.data.length + 1) initSt stL rfl hnm hinit hr0
  obtain ⟨w1, w2, w3, w4⟩ := flushWord_final_text source.data length
    ⟨true, sfx, false⟩ stL rfl hPL hstop
  refine ⟨stL, finalize length ⟨true, sfx, false⟩ stL, hr0, ?_, ?_⟩
  · unfold htmlRun
    dsimp only
    rw [hr0]
  · unfold finalize
    rw [openTags, openTagsF_nil _ _ _ hPL.1]
    dsimp only
    rw [if_neg Bool.false_ne_true]
    have hcq : (flushWord length ⟨true, sfx, false⟩ stL).2.closeQueue = [] := by
      rw [w4, hPL.2.1]
    have hsA : (flushWord length ⟨true, sfx, false⟩ stL).2.suffixAdded = false := by
      rw [w3, hPL.2.2.2.2.2.1]
    cases hfl : (flushWord length ⟨true, sfx, false⟩ stL).1 with
    | true =>
      rw [if_pos rfl]
      dsimp only
      refine ⟨?_, ?_, fun _ => rfl⟩
      · rw [hsA]
        simp only [if_false, Bool.false_eq_true, List.append_nil]
        rw [hcq]
        simp [String.data_append, joinAll, w1]
      · rw [hsA]
        simp
    | false =>
      rw [if_neg Bool.false_ne_true]
      unfold addSuffix
      dsimp only
      split
      · rename_i s
        rw [hsA]
        split
        · dsimp only
          refine ⟨?_, ?_, ?_⟩
          · rw [hcq]
            simp [String.data_append, joinAll, w1, Option.getD]
          · simp
          · intro hlen
            exact absurd (w2 hfl) (by omega)
        · rename_i hcontra
          simp at hcontra
      · dsimp only
        refine ⟨?_, ?_, ?_⟩
        · rw [hsA]
          simp only [if_false, Bool.false_eq_true, List.append_nil]
          rw [hcq]
          simp [String.data_append, joinAll, w1]
        · rw [hsA]
          simp
        · intro hlen
          exact absurd (w2 hfl) (by omega)




theorem stepFn_fail_inv (chars : List Char) (length : Nat) (opts : Options)
    (st : St) (e : HtmlSubstringError)
    (h : stepFn chars length opts st = .fail e) :
    chars[st.i]? = some '<' ∧ chars[st.i + 1]? = some '/' ∧ e.offset = st.i ∧
    haveToHaveClosingTag e.tag = true ∧
    e.tag = (closeTagScan chars chars.length (st.i + 2)).1 ∧
    ("</" ++ e.tag ++ ">") ∉
      (openTags false (flushWord length opts { st with i := st.i + 1 }).2).closeQueue := by
  unfold stepFn at h
  split at h
  · exact absurd h (by simp)
  · rename_i c hc
    dsimp only at h
    split at h
    · rename_i hlt
      split at h
      · exact absurd h (by simp)
      · rename_i stf hf
        have hfi : stf.i = st.i + 1 := by
          have := flushWord_i length opts { st with i := st.i + 1 }
          rw [hf] at this
          exact this
        split at h
        · split at h
          · rename_i hcomm
            have hdash : chars[stf.i + 2]? = some '-' := by
              have := (Bool.and_eq_true _ _).mp hcomm
              exact eq_of_beq this.2
            rw [commentLoop_pos_exit chars _ _ _ _
              (by have := getElem?_some_lt chars _ _ hdash; omega) hdash] at h
            exact absurd h (by simp)
          · exact absurd h (by simp)
        · rename_i hslash
          have hoi : (openTags false stf).i = stf.i := openTagsF_i _ _ _
          split at h
          · rename_i hneed
            split at h
            · rename_i hpop
              simp only [Step.fail.injEq] at h
              have he : e = ⟨(closeTagScan chars chars.length ((openTags false stf).i + 1)).1,
                  (openTags false stf).i - 1⟩ := h.symm
              subst he
              have hscan : (openTags false stf).i + 1 = st.i + 2 := by omega
              refine ⟨by rw [← hlt]; exact hc, by rw [← hfi]; exact hslash, ?_, ?_, ?_, ?_⟩
              · show (openTags false stf).i - 1 = st.i
                omega
              · simpa [hscan] using hneed
              · simp only [hscan]
              · intro hmem
                rw [hf] at hmem
                dsimp only at hmem
                rw [popUntil_none_iff] at hpop
                exact hpop hmem
            · exact absurd h (by simp)
          · exact absurd h (by simp)
        · split at h
          · exact absurd h (by simp)
          · exact absurd h (by simp)
    · split at h
      · exact absurd h (by simp)
      · split at h
        · exact absurd h (by simp)
        · split at h
          · exact absurd h (by simp)
          · exact absurd h (by simp)

theorem mainLoop_error (chars : List Char) (length : Nat) (opts : Options)
    (fuel : Nat) (st : St) (e : HtmlSubstringError)
    (h : mainLoop chars length opts fuel st = some (.error e)) :
    ∃ st1, st1.current < length ∧ st1.i < chars.length ∧
      stepFn chars length opts st1 = .fail e := by
  induction fuel generalizing st with
  | zero => simp [mainLoop] at h
  | succ fuel ih =>
    unfold mainLoop at h
    split at h
    · rename_i hguard
      cases hstep : stepFn chars length opts st with
      | cont st' =>
        rw [hstep] at h
        exact ih st' h
      | brk st' =>
        rw [hstep] at h
        simp at h
      | fail e' =>
        rw [hstep] at h
        simp only [Option.some.injEq, Except.error.injEq] at h
        exact ⟨st, hguard.1, hguard.2, by rw [hstep, h]⟩
      | hang =>
        rw [hstep] at h
        simp at h
    · simp at h

theorem htmlRun_error (source : String) (length : Nat) (opts : Options)
    (e : HtmlSubstringError)
    (h : htmlRun source length opts = some (.error e)) :
    ∃ st1, st1.current < length ∧ st1.i < source.data.length ∧
      stepFn source.data length opts st1 = .fail e := by
  unfold htmlRun at h
  dsimp only at h
  split at h
  · simp at h
  · rename_i e' hml
    simp only [Option.some.injEq, Except.error.injEq] at h
    rw [← h]
    exact mainLoop_error source.data length opts (source.data.length + 1) initSt e' hml
  · simp at h

theorem stepFn_close_fail (chars : List Char) (length : Nat) (opts : Options)
    (st stf : St)
    (hc : chars[st.i]? = some '<')
    (hsl : chars[st.i + 1]? = some '/')
    (hf : flushWord length opts { st with i := st.i + 1 } = (true, stf))
    (hneed : haveToHaveClosingTag
      ((closeTagScan chars chars.length (st.i + 2)).1) = true)
    (hnotin : ("</" ++ (closeTagScan chars chars.length (st.i + 2)).1 ++ ">") ∉
      (openTags false stf).closeQueue) :
    stepFn chars length opts st =
      .fail ⟨(closeTagScan chars chars.length (st.i + 2)).1, st.i⟩ := by
  have hfi : stf.i = st.i + 1 := by
    have := flushWord_i length opts { st with i := st.i + 1 }
    rw [hf] at this
    exact this
  have hoi : (openTags false stf).i = stf.i := openTagsF_i _ _ _
  have hscan : (openTags false stf).i + 1 = st.i + 2 := by omega
  unfold stepFn
  rw [hc]
  try dsimp only
  rw [if_pos rfl, hf]
  try dsimp only
  rw [show chars[stf.i]? = some '/' from by rw [hfi]; exact hsl]
  split
  · rename_i heq
    simp at heq
  · rw [hscan]
    rw [if_pos hneed]
    rw [show popUntil ("</" ++ (closeTagScan chars chars.length (st.i + 2)).1 ++ ">")
        (openTags false stf).closeQueue = none from (popUntil_none_iff _ _).mpr hnotin]
    simp only [Step.fail.injEq, HtmlSubstringError.mk.injEq]
    exact ⟨trivial, by omega⟩
  · rename_i hx h1 h2
    exact absurd rfl h2




theorem entityScan_found (chars : List Char) (offset k : Nat)
    (hsem : chars[k]? = some ';')
    (hmid : ∀ m, offset < m → m < k → ∀ c, chars[m]? = some c →
      isWhitespace c = false ∧ c ≠ ';') :
    ∀ fuel j, offset < j → j ≤ k → k < j + fuel →
      entityScan chars offset fuel j =
        (k + 1, ⟨(chars.drop (offset + 1)).take (k + 1 - (offset + 1))⟩) := by
  intro fuel
  induction fuel with
  | zero =>
    intro j h1 h2 h3
    omega
  | succ fuel ih =>
    intro j h1 h2 h3
    have hklen : k < chars.length := getElem?_some_lt chars _ _ hsem
    have hjlen : j < chars.length := by omega
    unfold entityScan
    rw [dif_pos hjlen]
    dsimp only
    by_cases hjk : j = k
    · subst hjk
      have hcj : chars[j] = ';' := by
        have h0 := List.getElem?_eq_getElem hjlen
        rw [hsem] at h0
        exact (Option.some.inj h0).symm
      rw [hcj]
      rw [if_neg (by decide), if_pos rfl]
    · have hjk' : j < k := by omega
      have hcj := hmid j h1 hjk' chars[j] (List.getElem?_eq_getElem hjlen)
      rw [if_neg (by simp [hcj.1]), if_neg (by simpa using hcj.2)]
      exact ih (j + 1) (by omega) (by omega) (by omega)

theorem stepFn_entity (chars : List Char) (length : Nat) (opts : Options)
    (st : St) (k : Nat)
    (_hcur : st.current < length)
    (hc : chars[st.i]? = some '&')
    (hk : st.i < k) (hsem : chars[k]? = some ';')
    (hmid : ∀ m, st.i < m → m < k → ∀ c, chars[m]? = some c →
      isWhitespace c = false ∧ c ≠ ';') :
    ∃ st', stepFn chars length opts st = .cont st' ∧
      st'.result = st.result
        ++ ("&" ++ (⟨(chars.drop (st.i + 1)).take (k - st.i)⟩ : String)) ∧
      st'.current = st.current + 1 ∧ st'.i = k + 1 ∧
      st'.closeQueue = st.closeQueue ∧ st'.openedQueue = st.openedQueue ∧
      st'.cw = st.cw := by
  have hklen : k < chars.length := getElem?_some_lt chars _ _ hsem
  unfold stepFn
  rw [hc]
  try dsimp only
  rw [if_neg (by decide), if_pos rfl]
  try dsimp only
  simp only [Nat.add_sub_cancel]
  rw [entityScan_found chars st.i k hsem hmid (chars.length - (st.i + 1)) (st.i + 1)
    (by omega) (by omega) (by omega)]
  refine ⟨_, rfl, ?_, rfl, rfl, rfl, rfl, rfl⟩
  try dsimp only
  rw [str_append_assoc]
  have hcount : k + 1 - (st.i + 1) = k - st.i := by omega
  rw [hcount]




/-- C10: `html_substring` terminates on every input string, length and
options: the main scan loop, the comment-skipping loop, the
entity-scanning loop (including its cursor rewind to just after `&`)
and the `openTag` rewind each make provable progress, so the run always
produces a result within `chars.length + 1` iterations of the main
loop (fuel is never exhausted and the comment loop never reads past the
end of the input). -/
theorem claimC10_termination (source : String) (length : Nat) (opts : Options) :
    (htmlRun source length opts).isSome = true ∧
    (html_substring source length opts).isSome = true := by
  obtain ⟨r, hr⟩ := htmlRun_total source length opts
  unfold html_substring
  rw [hr]
  exact ⟨rfl, rfl⟩

/-- C2 (amended): the output of a successful run is exactly the
rendering of its emission trace, and whenever every explicit closing
tag matched the top of the close-tag stack (`popClean`, i.e. no
intervening open obligations were discarded by the pop-until-match
loop), the trace is balanced: every closable opening tag emitted to the
output has a matching closing tag, correctly nested in stack (LIFO)
order.  The original claim, which extended this to interleaved or
mismatched sources such as `<b><i>x</b>`, is refuted by
`claimC2_counterexample`. -/
theorem claimC2_balanced (source : String) (length : Nat) (opts : Options)
    (stF : St) (h : htmlRun source length opts = some (.ok stF)) :
    stF.result = renderAll stF.events ∧
    (stF.popClean = true → balancedEvts stF.events = true) := by
  obtain ⟨h1, h2, h3, h4, h5⟩ := htmlRun_ok_props source length opts stF h
  refine ⟨h1, fun hp => ?_⟩
  rw [balancedEvts, h5 hp]
  rfl

/-- C2 counterexample: on the interleaved source `<b><i>x</b>` the
routine returns `<b><i>x</b>`: the closable opening tag `<i>` appears
in the output but no `</i>` does, so the output is not balanced,
refuting the claim for interleaved/mismatched sources. -/
theorem claimC2_counterexample :
    html_substring "<b><i>x</b>" 5 DEFAULT_OPTIONS = some (.ok "<b><i>x</b>") ∧
    "<i>".data <:+: "<b><i>x</b>".data ∧
    ¬("</i>".data <:+: "<b><i>x</b>".data) := by
  refine ⟨by rfl, by decide, by decide⟩

/-- C2 witness: on the properly nested source `<b><i>x</i></b>` the
final state has a clean pop history and the amended theorem yields a
balanced emission trace rendering to the output. -/
theorem claimC2_witness :
    ∃ stF, htmlRun "<b><i>x</i></b>" 10 DEFAULT_OPTIONS = some (.ok stF) ∧
      stF.result = renderAll stF.events ∧
      balancedEvts stF.events = true ∧ stF.popClean = true := by
  have h := claimC2_balanced "<b><i>x</i></b>" 10 DEFAULT_OPTIONS _ rfl
  exact ⟨_, rfl, h.1, h.2 rfl, rfl⟩

/-- C7 (amended): for every successful run the suffix is appended at
most once: the output is the rendering of the emission trace, the
number of suffix emissions in that trace equals `1` exactly when the
`suffixAdded` latch is set and `0` otherwise, and in particular never
exceeds one.  The original claim's "appears exactly once" is refuted by
`claimC7_counterexample` (a configured suffix may not be appended at
all). -/
theorem claimC7_suffix_once (source : String) (length : Nat) (opts : Options)
    (stF : St) (h : htmlRun source length opts = some (.ok stF)) :
    stF.result = renderAll stF.events ∧
    sfxCount stF.events = (if stF.suffixAdded then 1 else 0) ∧
    sfxCount stF.events ≤ 1 := by
  obtain ⟨h1, h2, h3, h4, h5⟩ := htmlRun_ok_props source length opts stF h
  refine ⟨h1, by rw [h3, h2], ?_⟩
  rw [h3, h2]
  split <;> omega

/-- C7 counterexample: with the suffix `...` configured and no
truncation, `html_substring "a" 5` returns `"a"`, which does not
contain the suffix text at all — the suffix does not appear exactly
once in the output. -/
theorem claimC7_counterexample :
    html_substring "a" 5 (optionsOfString "...") = some (.ok "a") ∧
    ¬("...".data <:+: "a".data) := by
  refine ⟨by rfl, by decide⟩

/-- C7 witness: on `"Hello world"` with budget 5 and suffix `...` the
run appends the suffix exactly once. -/
theorem claimC7_witness :
    ∃ stF, htmlRun "Hello world" 5 (optionsOfString "...") = some (.ok stF) ∧
      stF.result = renderAll stF.events ∧ sfxCount stF.events = 1 ∧
      sfxCount stF.events ≤ 1 := by
  have h := claimC7_suffix_once "Hello world" 5 (optionsOfString "...") _ rfl
  exact ⟨_, rfl, h.1, by rw [h.2.1]; rfl, h.2.2⟩

/-- C9 (amended): the running counter of a successful run never
exceeds `length + 1` — both as an invariant of every loop step entered
under the loop guard and at the final state.  The original bound
`length` is refuted by `claimC9_counterexample`: the literal `<` of a
`<!` that does not start a comment is counted after the preceding word
flush may already have filled the budget, overshooting it by exactly
one unit. -/
theorem claimC9_counter_bound (source : String) (length : Nat) (opts : Options) :
    (∀ st st', st.current < length → Inv length st →
      stepFn source.data length opts st = .cont st' → st'.current ≤ length + 1) ∧
    (∀ stF, htmlRun source length opts = some (.ok stF) →
      stF.current ≤ length + 1) := by
  constructor
  · intro st st' hg hInv hs
    exact (stepFn_cont_inv source.data length opts st st' hg hInv hs).2.2.2.1
  · intro stF h
    exact (htmlRun_ok_props source length opts stF h).2.2.2.1

/-- C9 counterexample: `html_substring "ab<!x" 2` returns `"ab<"`,
three visible characters against a budget of two, and the final counter
is `3 > 2`: the visible-length budget is exceeded. -/
theorem claimC9_counterexample :
    html_substring "ab<!x" 2 DEFAULT_OPTIONS = some (.ok "ab<") ∧
    (htmlRun "ab<!x" 2 DEFAULT_OPTIONS).map (fun r => r.map St.current)
      = some (.ok 3) ∧ 2 < 3 := by
  refine ⟨by rfl, by rfl, by omega⟩

/-- C9 witness: on `"ab<!x"` with budget 2 the final counter is 3,
within the amended bound `length + 1 = 3`. -/
theorem claimC9_witness :
    ∃ stF, htmlRun "ab<!x" 2 DEFAULT_OPTIONS = some (.ok stF) ∧
      stF.current ≤ 2 + 1 ∧ stF.current = 3 := by
  have h := (claimC9_counter_bound "ab<!x" 2 DEFAULT_OPTIONS).2 _ rfl
  exact ⟨_, rfl, h, rfl⟩

/-- C1: the code does not return `"A&amp;B"`'s expected truncation
`"A&amp;"`.  The `&` branch of the scanner writes the entity to the
result without first flushing the pending word buffer, so the pending
visible character `A` is emitted after the entity:
`html_substring "A&amp;B" 2` evaluates to `"&amp;A"`, with both budget
units consumed but the visible text reordered. -/
theorem claimC1_entity_reorder :
    html_substring "A&amp;B" 2 DEFAULT_OPTIONS = some (.ok "&amp;A") := by
  rfl

/-- C3: comments are not consumed verbatim.  The comment loop
`while (chars[i] !== '-' && chars[i+1] !== '-' && chars[i+2] !== '>')`
is entered with the cursor on the second `-` of `<!--`, so its
condition is false immediately and no character is ever copied; the
cursor then jumps two further, skipping the first body character, and
the rest of the comment including the `-->` terminator is scanned as
ordinary text: `html_substring "<!--abc-->" 10` evaluates to
`"bc-->"`, not `"abc"`. -/
theorem claimC3_comment_not_verbatim :
    html_substring "<!--abc-->" 10 DEFAULT_OPTIONS = some (.ok "bc-->") := by
  rfl




/-- C4 (amended): for every source with no `<` and no `&` and default
`breakWords = true`, the returned string is the prefix of length
`min(length, sourceLength)` of the source, followed by at most one copy
of the configured suffix, and the suffix is appended if and only if a
suffix is configured and the final word flush over the loop-exit state
reports failure (the budget is exhausted with pending characters
remaining).  In particular the suffix is never appended when no suffix
is configured, and never when no truncation occurred
(`sourceLength ≤ length`), since then the final flush reports success.
The original claim that the suffix is appended whenever truncation
occurred is refuted by `claimC4_counterexample`: when the final word
flush makes partial progress it reports success and the suffix is
skipped even though characters were dropped. -/
theorem claimC4_prefix (source : String) (length : Nat) (sfx : Option String)
    (hnm : ∀ c ∈ source.data, c ≠ '<' ∧ c ≠ '&') :
    ∃ out stL appended,
      html_substring source length
        { breakWords := true, suffix := sfx, shouldEncloseSuffixInTags := false }
        = some (.ok out) ∧
      mainLoop source.data length ⟨true, sfx, false⟩ (source.data.length + 1) initSt
        = some (.ok stL) ∧
      out.data = source.data.take (min length source.data.length)
        ++ (if appended then (sfx.getD "").data else []) ∧
      (appended = true ↔
        sfx ≠ none ∧ (flushWord length ⟨true, sfx, false⟩ stL).1 = false) ∧
      (source.data.length ≤ length →
        (flushWord length ⟨true, sfx, false⟩ stL).1 = true) := by
  obtain ⟨stL, stF, hml, hrun, hdata, hiff, hfl⟩ := htmlRun_text source length sfx hnm
  refine ⟨stF.result, stL, stF.suffixAdded, ?_, hml, hdata, hiff, hfl⟩
  unfold html_substring
  rw [hrun]
  rfl

/-- C4 counterexample: `html_substring "abc" 2` with suffix `...`
returns `"ab"`: truncation occurred (`3 > 2`) and a suffix is
configured, yet no copy of the suffix is appended, because the final
word flush made partial progress and reported success. -/
theorem claimC4_counterexample :
    html_substring "abc" 2 (optionsOfString "...") = some (.ok "ab") ∧
    2 < "abc".length ∧
    ¬("...".data <:+: "ab".data) := by
  refine ⟨by rfl, by decide, by decide⟩

/-- C4 witness: on the markup-free source `"Hello world"` with budget 5
and suffix `"..."` the run truncates exactly at the word boundary, the
final word flush fails, and the suffix IS appended: the result is
`"Hello..."` and the `appended` flag produced by the claim theorem is
`true`. -/
theorem claimC4_witness :
    ∃ out stL appended,
      html_substring "Hello world" 5
        { breakWords := true, suffix := some "...", shouldEncloseSuffixInTags := false }
        = some (.ok out) ∧
      mainLoop "Hello world".data 5 ⟨true, some "...", false⟩
        ("Hello world".data.length + 1) initSt = some (.ok stL) ∧
      out.data = "Hello world".data.take (min 5 "Hello world".data.length)
        ++ (if appended then ((some "...").getD "").data else []) ∧
      (appended = true ↔
        some "..." ≠ none ∧ (flushWord 5 ⟨true, some "...", false⟩ stL).1 = false) ∧
      appended = true ∧ out = "Hello..." := by
  obtain ⟨out, stL, appended, hout, hml, hdata, hiff, hfl⟩ :=
    claimC4_prefix "Hello world" 5 (some "...") (by decide)
  have hoc : out = "Hello..." := by
    have h2 : html_substring "Hello world" 5
        { breakWords := true, suffix := some "...", shouldEncloseSuffixInTags := false }
        = some (.ok "Hello...") := by rfl
    rw [hout] at h2
    simp only [Option.some.injEq, Except.ok.injEq] at h2
    exact h2
  have happ : appended = true := by
    cases happ : appended with
    | true => rfl
    | false =>
      rw [happ] at hdata
      simp only [Bool.false_eq_true, if_false, List.append_nil] at hdata
      rw [hoc] at hdata
      exact absurd hdata (by decide)
  exact ⟨out, stL, appended, hout, hml, hdata, hiff, happ, hoc⟩

/-- C5: a closing tag of an element that requires a closing tag and has
no matching entry on the close-tag stack (after materialising the
queued open tags) makes the step throw the markup-mismatch error
carrying the scanned tag name and the offset of the `<` at which the
closing tag began; and conversely every error a run can return arose at
such a closing tag: its offset points at `</`, its tag is the text
scanned up to the following `>`, and the element requires a closing
tag.  No other input condition (malformed opening tag, unterminated
comment, unterminated entity) raises, and an error run returns no
partial result string. -/
theorem claimC5_markup_mismatch (source : String) (length : Nat) (opts : Options) :
    (∀ st stf, source.data[st.i]? = some '<' →
      source.data[st.i + 1]? = some '/' →
      flushWord length opts { st with i := st.i + 1 } = (true, stf) →
      haveToHaveClosingTag
        ((closeTagScan source.data source.data.length (st.i + 2)).1) = true →
      ("</" ++ (closeTagScan source.data source.data.length (st.i + 2)).1 ++ ">") ∉
        (openTags false stf).closeQueue →
      stepFn source.data length opts st =
        .fail ⟨(closeTagScan source.data source.data.length (st.i + 2)).1, st.i⟩) ∧
    (∀ e, html_substring source length opts = some (.error e) →
      source.data[e.offset]? = some '<' ∧ source.data[e.offset + 1]? = some '/' ∧
      haveToHaveClosingTag e.tag = true ∧
      e.tag = (closeTagScan source.data source.data.length (e.offset + 2)).1) := by
  constructor
  · intro st stf hc hsl hf hneed hnotin
    exact stepFn_close_fail source.data length opts st stf hc hsl hf hneed hnotin
  · intro e h
    have herr : htmlRun source length opts = some (.error e) := by
      unfold html_substring at h
      cases hrun : htmlRun source length opts with
      | none => rw [hrun] at h; exact absurd h (by simp)
      | some r =>
        rw [hrun] at h
        cases r with
        | error e' =>
          simp only [Option.map_some', Except.map, Option.some.injEq,
            Except.error.injEq] at h
          rw [h]
        | ok s =>
          simp only [Option.map_some', Except.map] at h
          exact absurd h (by simp)
    obtain ⟨st1, hg1, hg2, hfail⟩ := htmlRun_error source length opts e herr
    obtain ⟨k1, k2, k3, k4, k5, k6⟩ :=
      stepFn_fail_inv source.data length opts st1 e hfail
    rw [k3]
    exact ⟨k1, k2, k4, k5⟩

/-- C5 witness: `html_substring "<b>Hi</span>" 10` throws the
markup-mismatch error for tag `span` at offset 5, and the error's data
satisfies the characterisation of the theorem. -/
theorem claimC5_witness :
    html_substring "<b>Hi</span>" 10 DEFAULT_OPTIONS
      = some (.error ⟨"span", 5⟩) ∧
    ("<b>Hi</span>".data[(5 : Nat)]? = some '<' ∧
      "<b>Hi</span>".data[(6 : Nat)]? = some '/' ∧
      haveToHaveClosingTag "span" = true ∧
      "span" = (closeTagScan "<b>Hi</span>".data "<b>Hi</span>".data.length 7).1) := by
  refine ⟨by rfl, ?_⟩
  have h := (claimC5_markup_mismatch "<b>Hi</span>" 10 DEFAULT_OPTIONS).2
    ⟨"span", 5⟩ (by rfl)
  exact h


/-- C6: when the scanner reaches an `&` within budget and the scan
ahead finds a `;` at position `k` with no whitespace (and no earlier
`;`) in between, the step appends the whole span from the `&` through
the `;` inclusive to the result as one contiguous block, consumes
exactly one unit of the visible budget for the entire entity reference,
and moves the cursor past the `;`; word buffer, tag queue and close-tag
stack are untouched. -/
theorem claimC6_entity_atomic (source : String) (length : Nat) (opts : Options)
    (st : St) (k : Nat)
    (hcur : st.current < length)
    (hc : source.data[st.i]? = some '&')
    (hk : st.i < k) (hsem : source.data[k]? = some ';')
    (hmid : ∀ m, st.i < m → m < k → ∀ c, source.data[m]? = some c →
      isWhitespace c = false ∧ c ≠ ';') :
    ∃ st', stepFn source.data length opts st = .cont st' ∧
      st'.result = st.result
        ++ ("&" ++ (⟨(source.data.drop (st.i + 1)).take (k - st.i)⟩ : String)) ∧
      st'.current = st.current + 1 ∧ st'.i = k + 1 ∧
      st'.closeQueue = st.closeQueue ∧ st'.openedQueue = st.openedQueue ∧
      st'.cw = st.cw :=
  stepFn_entity source.data length opts st k hcur hc hk hsem hmid

/-- C6 witness: on `"&a;"` with budget 5, the initial step emits the
entity `&a;` as one block for one budget unit and jumps past the
semicolon. -/
theorem claimC6_witness :
    ∃ st', stepFn "&a;".data 5 DEFAULT_OPTIONS initSt = .cont st' ∧
      st'.result = initSt.result
        ++ ("&" ++ (⟨("&a;".data.drop (initSt.i + 1)).take (2 - initSt.i)⟩ : String)) ∧
      st'.current = initSt.current + 1 ∧ st'.i = 2 + 1 ∧
      st'.closeQueue = initSt.closeQueue ∧ st'.openedQueue = initSt.openedQueue ∧
      st'.cw = initSt.cw := by
  apply claimC6_entity_atomic "&a;" 5 DEFAULT_OPTIONS initSt 2
  · decide
  · rfl
  · decide
  · rfl
  · intro m h1 h2 c hc
    have hm : m = 1 := by
      have : initSt.i = 0 := rfl
      omega
    subst hm
    have ha : ("&a;".data)[(1 : Nat)]? = some 'a' := rfl
    rw [ha] at hc
    injection hc with hc
    subst hc
    exact ⟨rfl, by decide⟩

/-- C8: with `breakWords = false` a nonempty pending word is flushed
only when the whole word fits in the remaining budget — otherwise the
flush reports failure and leaves the state untouched, so no partial
word is ever emitted — while with `breakWords = true` a word longer
than the (positive) remaining budget is cut with exactly the remaining
budget's worth of its leading characters emitted, the counter reaching
exactly the budget and the remainder staying pending. -/
theorem claimC8_word_policy (length : Nat) (opts : Options) (st : St) :
    (opts.breakWords = false → st.cw ≠ [] →
      ((length < st.current + st.cw.length →
        flushWord length opts st = (false, st)) ∧
       (st.current + st.cw.length ≤ length →
        (flushWord length opts st).1 = true ∧
        (flushWord length opts st).2.result
          = (openTags false st).result ++ (⟨st.cw⟩ : String) ∧
        (flushWord length opts st).2.cw = [] ∧
        (flushWord length opts st).2.current = st.current + st.cw.length))) ∧
    (opts.breakWords = true → 0 < length - st.current →
      length - st.current < st.cw.length →
      (flushWord length opts st).1 = true ∧
      (flushWord length opts st).2.result
        = (openTags false st).result ++ (⟨st.cw.take (length - st.current)⟩ : String) ∧
      (flushWord length opts st).2.current = length ∧
      (flushWord length opts st).2.cw = st.cw.drop (length - st.current)) := by
  constructor
  · intro hbw hcw
    unfold flushWord
    rw [hbw]
    rw [if_neg (by simp)]
    dsimp only
    rw [if_neg (fun hh => hcw (List.eq_nil_of_length_eq_zero hh))]
    constructor
    · intro hgt
      rw [if_neg (by omega)]
    · intro hle
      rw [if_pos hle]
      refine ⟨rfl, rfl, rfl, ?_⟩
      show (openTags false st).current + st.cw.length = st.current + st.cw.length
      rw [openTags, openTagsF_current]
  · intro hbw h1 h2
    unfold flushWord
    rw [hbw, if_pos rfl]
    dsimp only
    rw [if_neg (by omega), if_neg (by omega)]
    have hmin : min (length - st.current) st.cw.length = length - st.current := by
      omega
    refine ⟨rfl, ?_, ?_, ?_⟩
    · show (openTags false st).result
        ++ (⟨st.cw.take (min (length - st.current) st.cw.length)⟩ : String)
          = (openTags false st).result ++ (⟨st.cw.take (length - st.current)⟩ : String)
      rw [hmin]
    · show (openTags false st).current + min (length - st.current) st.cw.length = length
      rw [openTags, openTagsF_current, hmin]
      omega
    · show st.cw.drop (min (length - st.current) st.cw.length)
        = st.cw.drop (length - st.current)
      rw [hmin]

/-- C8 witness: with the pending word `abc` and a budget of 2, the
no-break policy drops the word whole and leaves the state unchanged,
while the break policy emits exactly the two leading characters and
fills the budget. -/
theorem claimC8_witness :
    (flushWord 2 ⟨false, none, false⟩ { initSt with cw := ['a', 'b', 'c'] }
      = (false, { initSt with cw := ['a', 'b', 'c'] })) ∧
    ((flushWord 2 ⟨true, none, false⟩ { initSt with cw := ['a', 'b', 'c'] }).2.result
      = (openTags false { initSt with cw := ['a', 'b', 'c'] }).result
        ++ (⟨['a', 'b', 'c'].take 2⟩ : String)) ∧
    ((flushWord 2 ⟨true, none, false⟩ { initSt with cw := ['a', 'b', 'c'] }).2.current
      = 2) ∧
    ((flushWord 2 ⟨true, none, false⟩ { initSt with cw := ['a', 'b', 'c'] }).2.cw
      = ['c']) := by
  have h1 := (claimC8_word_policy 2 ⟨false, none, false⟩
    { initSt with cw := ['a', 'b', 'c'] }).1 rfl (by decide)
  have h2 := (claimC8_word_policy 2 ⟨true, none, false⟩
    { initSt with cw := ['a', 'b', 'c'] }).2 rfl (by decide) (by decide)
  exact ⟨h1.1 (by decide), h2.2.1, h2.2.2.1, h2.2.2.2⟩


end HtmlSubstring
